import Mathlib

/-!
Verification of the HotSpot BitMap (src/hotspot/share/utilities/bitMap.cpp)
and the G1 collection-set mandatory pass, as a shallow embedding.

Machine words (BitMap::bm_word_t, 64 bits on LP64) are modelled as natural
numbers below 2 ^ 64; the backing storage is a list of such words.  All
definitions follow the C++ source line by line; small inline helpers that
live in bitMap.hpp (absent from the provided sources) are reconstructed and
marked as modelled from the spec.
-/

/-- Word width in bits (BitsPerWord on an LP64 platform; the source asserts
sizeof(bm_word_t) == BytesPerWord, i.e. 8 bytes). -/
def BitsPerWord : Nat := 64

/-- The modulus for 64-bit machine words. -/
def wordModulus : Nat := 2 ^ BitsPerWord

/-- A word with every bit set, the C++ literal ~(bm_word_t)0. -/
def allOnes : Nat := wordModulus - 1

/-- 64-bit bitwise complement, the C++ operator ~ on bm_word_t. -/
def wnot (w : Nat) : Nat := w ^^^ allOnes

/-- Modelled from the spec: bitMap.hpp's word_index (absent from src),
the index of the word holding bit i of a word-packed bit vector. -/
def word_index (i : Nat) : Nat := i / BitsPerWord

/-- Modelled from the spec: bitMap.hpp's bit_in_word (absent from src),
the position of bit i inside its word. -/
def bit_in_word (i : Nat) : Nat := i % BitsPerWord

/-- Modelled from the spec: bitMap.hpp's bit_mask (absent from src),
a word with only the in-word bit of i set. -/
def bit_mask (i : Nat) : Nat := 1 <<< bit_in_word i

/-- Modelled from the spec: bitMap.hpp's bit_index (absent from src),
the first bit of word w. -/
def bit_index (w : Nat) : Nat := w * BitsPerWord

/-- Modelled from the spec: bitMap.hpp's calc_size_in_words (absent from
src), ceil(bits / word_width), the storage word count of the spec's
allocate contract. -/
def calc_size_in_words (bits : Nat) : Nat := (bits + (BitsPerWord - 1)) / BitsPerWord

/-- Modelled from the spec: bitMap.hpp's word_index_round_up (absent from
src); on Nat the overflow branch of the source cannot trigger. -/
def word_index_round_up (i : Nat) : Nat := word_index (i + (BitsPerWord - 1))

/-- The bitmap state: backing words plus the size in bits.
Mirrors BitMap's fields _map and _size. -/
structure BitMap where
  map : List Nat
  size : Nat
deriving DecidableEq, Repr

/-- BitMap::size_in_words. -/
def BitMap.size_in_words (m : BitMap) : Nat := calc_size_in_words m.size

/-- Read storage word i (the C++ map()[i]); out-of-storage reads yield 0
and never occur in the source's valid uses. -/
def BitMap.getWord (m : BitMap) (i : Nat) : Nat := m.map.getD i 0

/-- Write storage word i (the C++ *word_addr = ...). -/
def BitMap.setWord (m : BitMap) (i w : Nat) : BitMap := ⟨m.map.set i w, m.size⟩

/-- The bit at position i, the C++ BitMap::at. -/
def BitMap.atBit (m : BitMap) (i : Nat) : Bool :=
  (m.getWord (word_index i)).testBit (bit_in_word i)

/-- Well-formedness: the storage has exactly ceil(size/word_width) words and
every word is a 64-bit value. -/
def WF (m : BitMap) : Prop :=
  m.map.length = calc_size_in_words m.size ∧ ∀ w ∈ m.map, w < wordModulus

instance (m : BitMap) : Decidable (WF m) := by
  unfold WF; infer_instance

/-- All valid bits set beyond the size are clear; the tail of the last
partial word carries no stale data. -/
def tailClear (m : BitMap) : Prop :=
  ∀ i, m.size ≤ i → m.atBit i = false

/-- Modelled from the spec: bitMap.hpp's inverted_bit_mask_for_range
(absent from src): a word mask that is 0 exactly on the in-word bits of
the single-word range [beg, end); requires end != 0 and a single-word
range, as asserted by the source callers. -/
def inverted_bit_mask_for_range (beg e : Nat) : Nat :=
  (bit_mask beg - 1) |||
    (if bit_in_word e ≠ 0 then wnot (bit_mask e - 1) else 0)

/-- BitMap::tail_mask (bitMap.cpp line 396). -/
def tail_mask (tail_bits : Nat) : Nat := (1 <<< tail_bits) - 1

/-- tail_of_map (bitMap.cpp line 403): low tail_bits of a word. -/
def tail_of_map (value tail_bits : Nat) : Nat := value &&& tail_mask tail_bits

/-- merge_tail_of_map (bitMap.cpp line 412): old_value with its low
tail_bits replaced by those of new_value. -/
def merge_tail_of_map (new_value old_value tail_bits : Nat) : Nat :=
  (new_value &&& tail_mask tail_bits) ||| (old_value &&& wnot (tail_mask tail_bits))

/-- BitMap::set_range_within_word (bitMap.cpp line 192). -/
def BitMap.set_range_within_word (m : BitMap) (beg e : Nat) : BitMap :=
  if beg ≠ e then
    let mask := inverted_bit_mask_for_range beg e
    m.setWord (word_index beg) (m.getWord (word_index beg) ||| wnot mask)
  else m

/-- BitMap::clear_range_within_word (bitMap.cpp line 201). -/
def BitMap.clear_range_within_word (m : BitMap) (beg e : Nat) : BitMap :=
  if beg ≠ e then
    let mask := inverted_bit_mask_for_range beg e
    m.setWord (word_index beg) (m.getWord (word_index beg) &&& mask)
  else m

/-- Modelled from the spec: bitMap.hpp's set_range_of_words (absent from
src), the whole-word middle loop writing one wide all-ones store per word
of [beg, end). -/
def BitMap.set_range_of_words (m : BitMap) (beg e : Nat) : BitMap :=
  if h : beg < e then (m.setWord beg allOnes).set_range_of_words (beg + 1) e else m
termination_by e - beg

/-- Modelled from the spec: bitMap.hpp's clear_range_of_words (absent from
src), zero-store per word of [beg, end). -/
def BitMap.clear_range_of_words (m : BitMap) (beg e : Nat) : BitMap :=
  if h : beg < e then (m.setWord beg 0).clear_range_of_words (beg + 1) e else m
termination_by e - beg

/-- Modelled from the spec: bitMap.hpp's set_large_range_of_words (absent
from src), an unrolled bulk memset of all-ones words; its sequential
word-by-word semantics coincides with set_range_of_words. -/
def BitMap.set_large_range_of_words (m : BitMap) (beg e : Nat) : BitMap :=
  if h : beg < e then (m.setWord beg allOnes).set_large_range_of_words (beg + 1) e else m
termination_by e - beg

/-- Modelled from the spec: bitMap.hpp's clear_large_range_of_words (absent
from src), an unrolled bulk zero memset. -/
def BitMap.clear_large_range_of_words (m : BitMap) (beg e : Nat) : BitMap :=
  if h : beg < e then (m.setWord beg 0).clear_large_range_of_words (beg + 1) e else m
termination_by e - beg

/-- BitMap::set_range (bitMap.cpp line 228). -/
def BitMap.set_range (m : BitMap) (beg e : Nat) : BitMap :=
  let beg_full_word := word_index_round_up beg
  let end_full_word := word_index e
  if beg_full_word < end_full_word then
    (((m.set_range_within_word beg (bit_index beg_full_word)).set_range_of_words
        beg_full_word end_full_word).set_range_within_word (bit_index end_full_word) e)
  else
    let boundary := min (bit_index beg_full_word) e
    (m.set_range_within_word beg boundary).set_range_within_word boundary e

/-- BitMap::clear_range (bitMap.cpp line 247). -/
def BitMap.clear_range (m : BitMap) (beg e : Nat) : BitMap :=
  let beg_full_word := word_index_round_up beg
  let end_full_word := word_index e
  if beg_full_word < end_full_word then
    (((m.clear_range_within_word beg (bit_index beg_full_word)).clear_range_of_words
        beg_full_word end_full_word).clear_range_within_word (bit_index end_full_word) e)
  else
    let boundary := min (bit_index beg_full_word) e
    (m.clear_range_within_word beg boundary).clear_range_within_word boundary e

/-- Modelled from the spec: bitMap.hpp's small_range_words threshold
(absent from src), the small-range cutoff of the large-range variants. -/
def small_range_words : Nat := 32

/-- BitMap::is_small_range_of_words (bitMap.cpp line 266). -/
def is_small_range_of_words (beg_full_word end_full_word : Nat) : Bool :=
  beg_full_word + small_range_words ≥ end_full_word

/-- BitMap::set_large_range (bitMap.cpp line 274). -/
def BitMap.set_large_range (m : BitMap) (beg e : Nat) : BitMap :=
  let beg_full_word := word_index_round_up beg
  let end_full_word := word_index e
  if is_small_range_of_words beg_full_word end_full_word then
    m.set_range beg e
  else
    (((m.set_range_within_word beg (bit_index beg_full_word)).set_large_range_of_words
        beg_full_word end_full_word).set_range_within_word (bit_index end_full_word) e)

/-- BitMap::clear_large_range (bitMap.cpp line 291). -/
def BitMap.clear_large_range (m : BitMap) (beg e : Nat) : BitMap :=
  let beg_full_word := word_index_round_up beg
  let end_full_word := word_index e
  if is_small_range_of_words beg_full_word end_full_word then
    m.clear_range beg e
  else
    (((m.clear_range_within_word beg (bit_index beg_full_word)).clear_large_range_of_words
        beg_full_word end_full_word).clear_range_within_word (bit_index end_full_word) e)

/-- Modelled from the spec: bitMap.hpp's set_bit (absent from src),
or-ing bit_mask into the containing word. -/
def BitMap.set_bit (m : BitMap) (i : Nat) : BitMap :=
  m.setWord (word_index i) (m.getWord (word_index i) ||| bit_mask i)

/-- Modelled from the spec: bitMap.hpp's clear_bit (absent from src),
and-ing the complemented bit_mask into the containing word. -/
def BitMap.clear_bit (m : BitMap) (i : Nat) : BitMap :=
  m.setWord (word_index i) (m.getWord (word_index i) &&& wnot (bit_mask i))

/-- BitMap::at_put (bitMap.cpp line 308). -/
def BitMap.at_put (m : BitMap) (offset : Nat) (value : Bool) : BitMap :=
  if value then m.set_bit offset else m.clear_bit offset

/-- BitMap::at_put_range (bitMap.cpp line 335). -/
def BitMap.at_put_range (m : BitMap) (start_offset end_offset : Nat) (value : Bool) : BitMap :=
  if value then m.set_range start_offset end_offset
  else m.clear_range start_offset end_offset

/-- BitMap::at_put_large_range (bitMap.cpp line 367). -/
def BitMap.at_put_large_range (m : BitMap) (beg e : Nat) (value : Bool) : BitMap :=
  if value then m.set_large_range beg e else m.clear_large_range beg e

/-- The word transformation computed by one iteration of
BitMap::par_put_range_within_word (bitMap.cpp line 210): the new word nw
proposed for the compare-and-swap, as a function of the word w read. -/
def parPutWordFn (beg e : Nat) (value : Bool) (w : Nat) : Nat :=
  if beg ≠ e then
    let mr := inverted_bit_mask_for_range beg e
    if value then w ||| wnot mr else w &&& mr
  else w

/-- The compare-and-swap retry loop of par_put_range_within_word
(bitMap.cpp lines 219-224): each failed cmpxchg observes an interfering
atomic write g of another thread and recomputes nw from the freshly read
word; the successful cmpxchg installs f applied to the latest value.  The
interference list is the sequence of competing writes that win before this
thread's cmpxchg succeeds. -/
def casLoop (f : Nat → Nat) : List (Nat → Nat) → Nat → Nat
  | [], w => f w
  | g :: gs, w => casLoop f gs (g w)

/-- A blind store (what the source deliberately avoids): the thread writes
the value computed from its initial read, ignoring interference. -/
def blindStore (f : Nat → Nat) : List (Nat → Nat) → Nat → Nat
  | _, w => f w

/-- BitMap::is_full (bitMap.cpp line 584). -/
def BitMap.is_full (m : BitMap) : Bool :=
  (List.range (word_index m.size)).all (fun i => wnot (m.getWord i) == 0) &&
    (bit_in_word m.size == 0 ||
      tail_of_map (wnot (m.getWord (word_index m.size))) (bit_in_word m.size) == 0)

/-- BitMap::is_empty (bitMap.cpp line 594). -/
def BitMap.is_empty (m : BitMap) : Bool :=
  (List.range (word_index m.size)).all (fun i => m.getWord i == 0) &&
    (bit_in_word m.size == 0 ||
      tail_of_map (m.getWord (word_index m.size)) (bit_in_word m.size) == 0)

/-- BitMap::contains (bitMap.cpp line 419): true unless other has a bit
set that is clear in this bitmap, ignoring the tail beyond size. -/
def BitMap.contains (m other : BitMap) : Bool :=
  (List.range (word_index m.size)).all
      (fun i => wnot (m.getWord i) &&& other.getWord i == 0) &&
    (bit_in_word m.size == 0 ||
      tail_of_map (wnot (m.getWord (word_index m.size)) &&& other.getWord (word_index m.size))
          (bit_in_word m.size) == 0)

/-- BitMap::intersects (bitMap.cpp line 434). -/
def BitMap.intersects (m other : BitMap) : Bool :=
  (List.range (word_index m.size)).any
      (fun i => m.getWord i &&& other.getWord i != 0) ||
    (bit_in_word m.size > 0 &&
      tail_of_map (m.getWord (word_index m.size) &&& other.getWord (word_index m.size))
          (bit_in_word m.size) != 0)

/-- BitMap::is_same (bitMap.cpp line 572). -/
def BitMap.is_same (m other : BitMap) : Bool :=
  (List.range (word_index m.size)).all
      (fun i => m.getWord i == other.getWord i) &&
    (bit_in_word m.size == 0 ||
      tail_of_map (m.getWord (word_index m.size) ^^^ other.getWord (word_index m.size))
          (bit_in_word m.size) == 0)

/-- BitMap::set_union (bitMap.cpp line 447): word-wise or over the full
words, merge_tail_of_map on a partial tail word. -/
def BitMap.set_union (m other : BitMap) : BitMap :=
  let limit := word_index m.size
  let full := (List.range limit).foldl
    (fun d i => d.setWord i (d.getWord i ||| other.getWord i)) m
  let rest := bit_in_word m.size
  if rest > 0 then
    full.setWord limit
      (merge_tail_of_map (full.getWord limit ||| other.getWord limit) (full.getWord limit) rest)
  else full

/-- BitMap::set_difference (bitMap.cpp line 462). -/
def BitMap.set_difference (m other : BitMap) : BitMap :=
  let limit := word_index m.size
  let full := (List.range limit).foldl
    (fun d i => d.setWord i (d.getWord i &&& wnot (other.getWord i))) m
  let rest := bit_in_word m.size
  if rest > 0 then
    full.setWord limit
      (merge_tail_of_map (full.getWord limit &&& wnot (other.getWord limit))
        (full.getWord limit) rest)
  else full

/-- BitMap::set_intersection (bitMap.cpp line 477). -/
def BitMap.set_intersection (m other : BitMap) : BitMap :=
  let limit := word_index m.size
  let full := (List.range limit).foldl
    (fun d i => d.setWord i (d.getWord i &&& other.getWord i)) m
  let rest := bit_in_word m.size
  if rest > 0 then
    full.setWord limit
      (merge_tail_of_map (full.getWord limit &&& other.getWord limit) (full.getWord limit) rest)
  else full

/-- BitMap::set_union_with_result (bitMap.cpp line 492): like set_union
but also reports whether any word changed. -/
def BitMap.set_union_with_result (m other : BitMap) : Bool × BitMap :=
  let limit := word_index m.size
  let full := (List.range limit).foldl
    (fun p i =>
      (p.1 || decide ((p.2.getWord i ||| other.getWord i) ≠ p.2.getWord i),
        p.2.setWord i (p.2.getWord i ||| other.getWord i))) (false, m)
  let rest := bit_in_word m.size
  if rest > 0 then
    (full.1 || decide (merge_tail_of_map (full.2.getWord limit ||| other.getWord limit)
          (full.2.getWord limit) rest ≠ full.2.getWord limit),
      full.2.setWord limit
        (merge_tail_of_map (full.2.getWord limit ||| other.getWord limit)
          (full.2.getWord limit) rest))
  else full

/-- BitMap::set_difference_with_result (bitMap.cpp line 514). -/
def BitMap.set_difference_with_result (m other : BitMap) : Bool × BitMap :=
  let limit := word_index m.size
  let full := (List.range limit).foldl
    (fun p i =>
      (p.1 || decide ((p.2.getWord i &&& wnot (other.getWord i)) ≠ p.2.getWord i),
        p.2.setWord i (p.2.getWord i &&& wnot (other.getWord i)))) (false, m)
  let rest := bit_in_word m.size
  if rest > 0 then
    (full.1 || decide (merge_tail_of_map (full.2.getWord limit &&& wnot (other.getWord limit))
          (full.2.getWord limit) rest ≠ full.2.getWord limit),
      full.2.setWord limit
        (merge_tail_of_map (full.2.getWord limit &&& wnot (other.getWord limit))
          (full.2.getWord limit) rest))
  else full

/-- BitMap::set_intersection_with_result (bitMap.cpp line 536). -/
def BitMap.set_intersection_with_result (m other : BitMap) : Bool × BitMap :=
  let limit := word_index m.size
  let full := (List.range limit).foldl
    (fun p i =>
      (p.1 || decide ((p.2.getWord i &&& other.getWord i) ≠ p.2.getWord i),
        p.2.setWord i (p.2.getWord i &&& other.getWord i))) (false, m)
  let rest := bit_in_word m.size
  if rest > 0 then
    (full.1 || decide (merge_tail_of_map (full.2.getWord limit &&& other.getWord limit)
          (full.2.getWord limit) rest ≠ full.2.getWord limit),
      full.2.setWord limit
        (merge_tail_of_map (full.2.getWord limit &&& other.getWord limit)
          (full.2.getWord limit) rest))
  else full

/-- BitMap::set_from (bitMap.cpp line 558): copy the whole words, then
merge the low tail bits of other into the unchanged high tail of dest. -/
def BitMap.set_from (m other : BitMap) : BitMap :=
  let copy_words := word_index m.size
  let full := (List.range copy_words).foldl (fun d i => d.setWord i (other.getWord i)) m
  let rest := bit_in_word m.size
  if rest > 0 then
    full.setWord copy_words
      (merge_tail_of_map (other.getWord copy_words) (full.getWord copy_words) rest)
  else full

/-- BitMap::clear_large (bitMap.cpp line 604). -/
def BitMap.clear_large (m : BitMap) : BitMap :=
  m.clear_large_range_of_words 0 m.size_in_words

/-- BitMap::num_set_bits (bitMap.cpp line 650): the nested shift loops
count one per set bit; each step inspects the low bit and shifts right. -/
def num_set_bits (w : Nat) : Nat :=
  if h : w = 0 then 0
  else if w % 2 = 0 then num_set_bits (w / 2) else 1 + num_set_bits (w / 2)
termination_by w
decreasing_by all_goals exact Nat.div_lt_self (Nat.pos_of_ne_zero h) (by decide)

/-- BitMap::num_set_bits_from_table (bitMap.cpp line 663): the content of
the lazily built byte table is table[c] = num_set_bits c for c < 256; the
racy one-shot initialization (init_pop_count_table) is not observable in
the returned values. -/
def num_set_bits_from_table (c : Nat) : Nat := num_set_bits c

/-- The inner byte loop of BitMap::count_one_bits: sizeof(bm_word_t) = 8
table lookups on successive low bytes of the word. -/
def countWordBytes (w : Nat) : Nat → Nat
  | 0 => 0
  | j + 1 => num_set_bits_from_table (w &&& 255) + countWordBytes (w >>> 8) j

/-- BitMap::count_one_bits (bitMap.cpp line 668): byte-table population
count over all storage words, with no masking of the tail word. -/
def BitMap.count_one_bits (m : BitMap) : Nat :=
  (List.range m.size_in_words).foldl (fun sum i => sum + countWordBytes (m.getWord i) 8) 0

/-- BitMap::reallocate (bitMap.cpp line 75): allocate ceil(new_size/64)
words (their initial content junk models the allocator's uninitialized
memory), copy min(old, new) whole words from the old storage, and when
clear is requested zero-fill the words grown beyond the old word count.
Freeing the old storage has no observable effect on the value. -/
def reallocate (junk : List Nat) (old_map : List Nat) (old_size_in_bits new_size_in_bits : Nat)
    (clear : Bool) : List Nat :=
  let old_size_in_words := calc_size_in_words old_size_in_bits
  let new_size_in_words := calc_size_in_words new_size_in_bits
  if new_size_in_words > 0 then
    let alloc := (List.range new_size_in_words).map (fun i => junk.getD i 0)
    let copied := (List.range new_size_in_words).map (fun i =>
      if i < min old_size_in_words new_size_in_words then old_map.getD i 0
      else alloc.getD i 0)
    if clear && new_size_in_words > old_size_in_words then
      (List.range new_size_in_words).map (fun i =>
        if old_size_in_words ≤ i then 0 else copied.getD i 0)
    else copied
  else []

/-- BitMap::resize (bitMap.cpp line 113): reallocate and update map and
size. -/
def BitMap.resize (m : BitMap) (new_size_in_bits : Nat) (clear : Bool) (junk : List Nat) :
    BitMap :=
  ⟨reallocate junk m.map m.size new_size_in_bits clear, new_size_in_bits⟩

/-- BitMap::allocate (bitMap.cpp line 102), reusing reallocate from empty
storage exactly as the source does. -/
def BitMap.allocate (size_in_bits : Nat) (clear : Bool) (junk : List Nat) : BitMap :=
  ⟨reallocate junk [] 0 size_in_bits clear, size_in_bits⟩

/-- The inner bit loop of BitMap::iterate (bitMap.cpp lines 621-629): scan
rest upward from offset; on a set low bit invoke the closure, abort on
false, otherwise re-read the containing word of the (possibly mutated)
bitmap.  The fuel equals the bits left in the word; the loop always leaves
by rest = 0 or offset = rightOffset before exhausting it. -/
def iterInner (blk : Nat → BitMap → Bool × BitMap) (index rightOffset : Nat) :
    Nat → BitMap → Nat → Nat → Bool × BitMap × List Nat
  | 0, m, _, _ => (true, m, [])
  | fuel + 1, m, offset, rest =>
    if offset < rightOffset ∧ rest ≠ 0 then
      if rest % 2 = 1 then
        let r := blk offset m
        if r.1 then
          let reread := r.2.getWord index >>> (offset % BitsPerWord)
          let rec1 := iterInner blk index rightOffset fuel r.2 (offset + 1) (reread >>> 1)
          (rec1.1, rec1.2.1, offset :: rec1.2.2)
        else (false, r.2, [offset])
      else iterInner blk index rightOffset fuel m (offset + 1) (rest >>> 1)
    else (true, m, [])

/-- The outer word loop of BitMap::iterate (bitMap.cpp lines 617-630): the
fuel equals endIndex - index, the exact number of word iterations left. -/
def iterOuter (blk : Nat → BitMap → Bool × BitMap) (rightOffset endIndex : Nat) :
    Nat → BitMap → Nat → Nat → Bool × BitMap × List Nat
  | 0, m, _, _ => (true, m, [])
  | fuel + 1, m, index, offset =>
    if offset < rightOffset ∧ index < endIndex then
      let rest := m.getWord index >>> (offset % BitsPerWord)
      let inner := iterInner blk index rightOffset (BitsPerWord - offset % BitsPerWord) m offset rest
      if inner.1 then
        let rec1 := iterOuter blk rightOffset endIndex fuel inner.2.1 (index + 1)
          (bit_index (index + 1))
        (rec1.1, rec1.2.1, inner.2.2 ++ rec1.2.2)
      else (false, inner.2.1, inner.2.2)
    else (true, m, [])

/-- BitMap::iterate (bitMap.cpp line 612), instrumented with the list of
offsets at which the closure was invoked (the visit trace); the Bool and
final bitmap are exactly the source's result and side effect. -/
def BitMap.iterate (m : BitMap) (blk : Nat → BitMap → Bool × BitMap)
    (leftOffset rightOffset : Nat) : Bool × BitMap × List Nat :=
  let startIndex := word_index leftOffset
  let endIndex := min (word_index rightOffset + 1) m.size_in_words
  iterOuter blk rightOffset endIndex (endIndex - startIndex) m startIndex leftOffset

/-- A closure that never mutates the bitmap and answers the pure
predicate p. -/
def pureBlk (p : Nat → Bool) : Nat → BitMap → Bool × BitMap := fun o m => (p o, m)

/-- The sequential public mutating operations of the BitMap API
(bitMap.cpp), excluding resize; used to state reachability claims. -/
inductive PublicOp where
  | opSetBit (i : Nat)
  | opClearBit (i : Nat)
  | opAtPut (i : Nat) (v : Bool)
  | opSetRange (b e : Nat)
  | opClearRange (b e : Nat)
  | opSetLargeRange (b e : Nat)
  | opClearLargeRange (b e : Nat)
  | opAtPutRange (b e : Nat) (v : Bool)
  | opAtPutLargeRange (b e : Nat) (v : Bool)
  | opSetUnion (o : BitMap)
  | opSetDifference (o : BitMap)
  | opSetIntersection (o : BitMap)
  | opSetFrom (o : BitMap)
  | opClearLarge

/-- Apply one public operation. -/
def applyOp (m : BitMap) : PublicOp → BitMap
  | .opSetBit i => m.set_bit i
  | .opClearBit i => m.clear_bit i
  | .opAtPut i v => m.at_put i v
  | .opSetRange b e => m.set_range b e
  | .opClearRange b e => m.clear_range b e
  | .opSetLargeRange b e => m.set_large_range b e
  | .opClearLargeRange b e => m.clear_large_range b e
  | .opAtPutRange b e v => m.at_put_range b e v
  | .opAtPutLargeRange b e v => m.at_put_large_range b e v
  | .opSetUnion o => m.set_union o
  | .opSetDifference o => m.set_difference o
  | .opSetIntersection o => m.set_intersection o
  | .opSetFrom o => m.set_from o
  | .opClearLarge => m.clear_large

/-- The caller contract of each operation, the asserts of verify_index,
verify_range and the same-size asserts of the set-algebra operations. -/
def ValidOp (m : BitMap) : PublicOp → Prop
  | .opSetBit i => i < m.size
  | .opClearBit i => i < m.size
  | .opAtPut i _ => i < m.size
  | .opSetRange b e => b ≤ e ∧ e ≤ m.size
  | .opClearRange b e => b ≤ e ∧ e ≤ m.size
  | .opSetLargeRange b e => b ≤ e ∧ e ≤ m.size
  | .opClearLargeRange b e => b ≤ e ∧ e ≤ m.size
  | .opAtPutRange b e _ => b ≤ e ∧ e ≤ m.size
  | .opAtPutLargeRange b e _ => b ≤ e ∧ e ≤ m.size
  | .opSetUnion o => o.size = m.size ∧ WF o
  | .opSetDifference o => o.size = m.size ∧ WF o
  | .opSetIntersection o => o.size = m.size ∧ WF o
  | .opSetFrom o => o.size = m.size ∧ WF o
  | .opClearLarge => True

/-- Apply a sequence of public operations left to right. -/
def applyOps (m : BitMap) : List PublicOp → BitMap
  | [] => m
  | op :: ops => applyOps (applyOp m op) ops

/-- Each operation of the sequence satisfies its caller contract in the
state it runs in. -/
def ValidOps (m : BitMap) : List PublicOp → Prop
  | [] => True
  | op :: ops => ValidOp m op ∧ ValidOps (applyOp m op) ops

/-- The complement of a bitmap taken over bit positions below size, the
construction named by the De Morgan claim: every valid bit flipped, tail
bits of the last partial word left clear. -/
def complementBelowSize (m : BitMap) : BitMap :=
  ⟨(List.range m.map.length).map (fun i =>
      if i < word_index m.size then wnot (m.map.getD i 0)
      else tail_of_map (wnot (m.map.getD i 0)) (bit_in_word m.size)),
    m.size⟩

/-- Modelled from the spec: the mandatory pass of
G1Policy::calculate_old_collection_set_regions (g1Policy.cpp, absent from
src; only the declaration in the G1Policy header is provided).  Spec 4.4:
walk the candidates in order, predicting each region's marginal cost;
accumulate until the mandatory time budget is exhausted or the maximum
old-region count is reached; always include at least the minimum count
even if this overruns the budget.  Times are exact rationals standing for
the source's double milliseconds. -/
def calcOldMandatoryAux (minOld maxOld : Nat) : List ℚ → ℚ → Nat → Nat
  | [], _, cnt => cnt
  | c :: cs, remaining, cnt =>
    if maxOld ≤ cnt then cnt
    else if cnt < minOld then calcOldMandatoryAux minOld maxOld cs (max (remaining - c) 0) (cnt + 1)
    else if remaining < c then cnt
    else calcOldMandatoryAux minOld maxOld cs (remaining - c) (cnt + 1)

/-- Modelled from the spec: the count of mandatory old regions selected by
the collection-set policy from the ordered candidate costs under the
mandatory time budget; a plain total function, so a budget overrun is not
an error and only the returned count is observable. -/
def calcOldMandatory (costs : List ℚ) (budget : ℚ) (minOld maxOld : Nat) : Nat :=
  calcOldMandatoryAux minOld maxOld costs budget 0

/-- Truncate a list at the first element rejected by p, keeping that
element: the visit order of an iteration that stops on the first false
closure answer, used to specify the iterate trace. -/
def stopAt (p : Nat → Bool) : List Nat → List Nat
  | [] => []
  | x :: xs => if p x then x :: stopAt p xs else [x]

/-- The positions of set bits of m in the half-open range, in increasing
order; the reference traversal for the iterate specification. -/
def setBitsIn (m : BitMap) (l r : Nat) : List Nat :=
  (List.range' l (r - l)).filter (fun i => m.atBit i)

/-! Word-level lemma toolkit. -/

theorem allOnes_lt : allOnes < wordModulus := by
  unfold allOnes; exact Nat.sub_lt (Nat.pos_pow_of_pos _ (by decide)) (by decide)

theorem testBit_wnot (w j : Nat) : (wnot w).testBit j = (w.testBit j ^^ decide (j < 64)) := by
  unfold wnot allOnes wordModulus BitsPerWord
  rw [Nat.testBit_xor, Nat.testBit_two_pow_sub_one]

theorem testBit_wnot_lt (w j : Nat) (hj : j < 64) : (wnot w).testBit j = !(w.testBit j) := by
  rw [testBit_wnot]; simp [hj]

theorem wnot_lt_wordModulus (w : Nat) (h : w < wordModulus) : wnot w < wordModulus :=
  Nat.xor_lt_two_pow h allOnes_lt

theorem testBit_ge_64 (w j : Nat) (h : w < wordModulus) (hj : 64 ≤ j) :
    w.testBit j = false :=
  Nat.testBit_lt_two_pow (lt_of_lt_of_le h (Nat.pow_le_pow_right (by decide) hj))

theorem bit_mask_eq (i : Nat) : bit_mask i = 2 ^ (i % 64) := by
  unfold bit_mask bit_in_word BitsPerWord; rw [Nat.shiftLeft_eq, one_mul]

theorem testBit_bit_mask (i j : Nat) : (bit_mask i).testBit j = decide (i % 64 = j) := by
  rw [bit_mask_eq, Nat.testBit_two_pow]

theorem tail_mask_eq (n : Nat) : tail_mask n = 2 ^ n - 1 := by
  unfold tail_mask; rw [Nat.shiftLeft_eq, one_mul]

theorem testBit_tail_mask (n j : Nat) : (tail_mask n).testBit j = decide (j < n) := by
  rw [tail_mask_eq, Nat.testBit_two_pow_sub_one]

theorem tail_mask_lt (n : Nat) (h : n ≤ 64) : tail_mask n < wordModulus := by
  rw [tail_mask_eq]
  calc 2 ^ n - 1 < 2 ^ n := Nat.sub_lt (Nat.pos_pow_of_pos _ (by decide)) (by decide)
  _ ≤ 2 ^ 64 := Nat.pow_le_pow_right (by decide) h

theorem invMask_lt (beg e : Nat) : inverted_bit_mask_for_range beg e < wordModulus := by
  unfold inverted_bit_mask_for_range
  apply Nat.or_lt_two_pow
  · rw [bit_mask_eq]
    calc 2 ^ (beg % 64) - 1 < 2 ^ (beg % 64) :=
          Nat.sub_lt (Nat.pos_pow_of_pos _ (by decide)) (by decide)
    _ ≤ 2 ^ 64 := Nat.pow_le_pow_right (by decide) (le_of_lt (Nat.mod_lt _ (by decide)))
  · split
    · exact wnot_lt_wordModulus _ (by
        rw [bit_mask_eq]
        calc 2 ^ (e % 64) - 1 < 2 ^ (e % 64) :=
              Nat.sub_lt (Nat.pos_pow_of_pos _ (by decide)) (by decide)
        _ ≤ 2 ^ 64 := Nat.pow_le_pow_right (by decide) (le_of_lt (Nat.mod_lt _ (by decide))))
    · exact Nat.pos_pow_of_pos _ (by decide)

theorem testBit_invMask (beg e j : Nat) (hj : j < 64) :
    (inverted_bit_mask_for_range beg e).testBit j =
      (decide (j < beg % 64) || (decide (e % 64 ≠ 0) && decide (e % 64 ≤ j))) := by
  unfold inverted_bit_mask_for_range bit_in_word BitsPerWord
  rw [Nat.testBit_lor]
  have h1 : (bit_mask beg - 1).testBit j = decide (j < beg % 64) := by
    rw [bit_mask_eq, Nat.testBit_two_pow_sub_one]
  rw [h1]
  by_cases he : e % 64 ≠ 0
  · have h2 : (wnot (bit_mask e - 1)).testBit j = decide (e % 64 ≤ j) := by
      rw [testBit_wnot_lt _ _ hj, bit_mask_eq, Nat.testBit_two_pow_sub_one]
      rcases Nat.lt_or_ge j (e % 64) with h | h <;> simp [h, Nat.not_le.mpr, Nat.not_lt.mpr]
    simp [he, h2]
  · simp [he, Nat.zero_testBit]

theorem testBit_wnot_invMask (beg e j : Nat) (hj : j < 64) :
    (wnot (inverted_bit_mask_for_range beg e)).testBit j =
      decide (beg % 64 ≤ j ∧ (e % 64 = 0 ∨ j < e % 64)) := by
  rw [testBit_wnot_lt _ _ hj, testBit_invMask _ _ _ hj]
  rw [Bool.eq_iff_iff]
  simp only [Bool.not_eq_true', Bool.or_eq_false_iff, Bool.and_eq_false_iff,
    Bool.not_eq_true, Bool.or_eq_true, Bool.and_eq_true,
    decide_eq_true_eq, decide_eq_false_iff_not]
  omega

/-! Storage access lemmas. -/

theorem getWord_setWord (m : BitMap) (k w i : Nat) :
    (m.setWord k w).getWord i = if i = k ∧ k < m.map.length then w else m.getWord i := by
  unfold BitMap.setWord BitMap.getWord
  simp only [List.getD_eq_getElem?_getD, List.getElem?_set]
  by_cases h1 : k = i
  · subst h1
    by_cases h2 : k < m.map.length
    · simp [h2]
    · rw [List.getElem?_eq_none (Nat.le_of_not_lt h2)]
      simp [h2]
  · simp [h1, Ne.symm h1]

theorem length_setWord (m : BitMap) (k w : Nat) :
    (m.setWord k w).map.length = m.map.length := List.length_set ..

theorem size_setWord (m : BitMap) (k w : Nat) : (m.setWord k w).size = m.size := rfl

theorem atBit_setWord (m : BitMap) (k w i : Nat) :
    (m.setWord k w).atBit i =
      if word_index i = k ∧ k < m.map.length then w.testBit (bit_in_word i)
      else m.atBit i := by
  unfold BitMap.atBit
  rw [getWord_setWord]
  by_cases h : word_index i = k ∧ k < m.map.length <;> simp [h]

theorem atBit_out_of_storage (m : BitMap) (i : Nat) (h : m.map.length * 64 ≤ i) :
    m.atBit i = false := by
  unfold BitMap.atBit BitMap.getWord word_index BitsPerWord
  have : m.map.length ≤ i / 64 := by omega
  rw [List.getD_eq_getElem?_getD, List.getElem?_eq_none this]
  simp [Nat.zero_testBit]

theorem WF.size_le_storage {m : BitMap} (h : WF m) : m.size ≤ m.map.length * 64 := by
  have h1 := h.1
  unfold calc_size_in_words BitsPerWord at h1
  omega

theorem WF.getWord_lt {m : BitMap} (h : WF m) (i : Nat) : m.getWord i < wordModulus := by
  unfold BitMap.getWord
  rw [List.getD_eq_getElem?_getD]
  rcases h' : m.map[i]? with _ | w
  · simpa using Nat.pos_pow_of_pos 64 (by decide)
  · simpa using h.2 w (List.getElem?_mem h')

theorem WF.setWord {m : BitMap} (h : WF m) (k w : Nat) (hw : w < wordModulus) :
    WF (m.setWord k w) := by
  refine ⟨by rw [length_setWord, size_setWord]; exact h.1, ?_⟩
  intro x hx
  rcases List.mem_or_eq_of_mem_set hx with hx | rfl
  · exact h.2 x hx
  · exact hw

theorem testBit_allOnes (j : Nat) : allOnes.testBit j = decide (j < 64) := by
  unfold allOnes wordModulus BitsPerWord
  exact Nat.testBit_two_pow_sub_one 64 j

theorem testBit_invMask_neg (beg e j : Nat) (hj : j < 64) :
    (inverted_bit_mask_for_range beg e).testBit j =
      !decide (beg % 64 ≤ j ∧ (e % 64 = 0 ∨ j < e % 64)) := by
  rw [testBit_invMask _ _ _ hj, Bool.eq_iff_iff]
  simp only [Bool.or_eq_true, Bool.and_eq_true, Bool.not_eq_true', Bool.not_eq_true,
    decide_eq_true_eq, decide_eq_false_iff_not]
  omega

/-! Characterization of the within-word range writes. -/

theorem length_set_range_within_word (m : BitMap) (beg e : Nat) :
    (m.set_range_within_word beg e).map.length = m.map.length := by
  unfold BitMap.set_range_within_word
  split
  · exact length_setWord ..
  · rfl

theorem size_set_range_within_word (m : BitMap) (beg e : Nat) :
    (m.set_range_within_word beg e).size = m.size := by
  unfold BitMap.set_range_within_word
  split
  · rfl
  · rfl

theorem length_clear_range_within_word (m : BitMap) (beg e : Nat) :
    (m.clear_range_within_word beg e).map.length = m.map.length := by
  unfold BitMap.clear_range_within_word
  split
  · exact length_setWord ..
  · rfl

theorem size_clear_range_within_word (m : BitMap) (beg e : Nat) :
    (m.clear_range_within_word beg e).size = m.size := by
  unfold BitMap.clear_range_within_word
  split
  · rfl
  · rfl

theorem atBit_set_range_within_word (m : BitMap) (beg e i : Nat) (hbe : beg ≤ e)
    (hw : e ≤ (word_index beg + 1) * 64) (hlen : e ≤ m.map.length * 64) :
    (m.set_range_within_word beg e).atBit i = (m.atBit i || decide (beg ≤ i ∧ i < e)) := by
  unfold BitMap.set_range_within_word
  by_cases hne : beg ≠ e
  · rw [if_pos hne]
    have hblt : beg < e := lt_of_le_of_ne hbe hne
    have hblen : word_index beg < m.map.length := by
      unfold word_index BitsPerWord at *; omega
    rw [atBit_setWord]
    by_cases hcase : word_index i = word_index beg
    · rw [if_pos ⟨hcase, hblen⟩]
      have hj : bit_in_word i < 64 := Nat.mod_lt _ (by decide)
      rw [Nat.testBit_lor, testBit_wnot_invMask _ _ _ hj]
      unfold BitMap.atBit
      rw [hcase]
      congr 1
      rw [decide_eq_decide]
      unfold word_index bit_in_word BitsPerWord at *
      omega
    · rw [if_neg (fun h => hcase h.1)]
      have : ¬(beg ≤ i ∧ i < e) := by
        unfold word_index BitsPerWord at *; omega
      simp [this]
  · rw [if_neg hne]
    push_neg at hne
    subst hne
    have : ¬(beg ≤ i ∧ i < beg) := by omega
    simp [this]

theorem atBit_clear_range_within_word (m : BitMap) (beg e i : Nat) (hbe : beg ≤ e)
    (hw : e ≤ (word_index beg + 1) * 64) (hlen : e ≤ m.map.length * 64) :
    (m.clear_range_within_word beg e).atBit i = (m.atBit i && !decide (beg ≤ i ∧ i < e)) := by
  unfold BitMap.clear_range_within_word
  by_cases hne : beg ≠ e
  · rw [if_pos hne]
    have hblt : beg < e := lt_of_le_of_ne hbe hne
    have hblen : word_index beg < m.map.length := by
      unfold word_index BitsPerWord at *; omega
    rw [atBit_setWord]
    by_cases hcase : word_index i = word_index beg
    · rw [if_pos ⟨hcase, hblen⟩]
      have hj : bit_in_word i < 64 := Nat.mod_lt _ (by decide)
      rw [Nat.testBit_land, testBit_invMask_neg _ _ _ hj]
      unfold BitMap.atBit
      rw [hcase]
      congr 2
      rw [decide_eq_decide]
      unfold word_index bit_in_word BitsPerWord at *
      omega
    · rw [if_neg (fun h => hcase h.1)]
      have : ¬(beg ≤ i ∧ i < e) := by
        unfold word_index BitsPerWord at *; omega
      simp [this]
  · rw [if_neg hne]
    push_neg at hne
    subst hne
    have : ¬(beg ≤ i ∧ i < beg) := by omega
    simp [this]

/-! Characterization of the whole-word middle loops. -/

theorem length_set_range_of_words (m : BitMap) (beg e : Nat) :
    (m.set_range_of_words beg e).map.length = m.map.length := by
  generalize hn : e - beg = n
  induction n generalizing m beg with
  | zero => rw [BitMap.set_range_of_words, dif_neg (by omega)]
  | succ k ih =>
    rw [BitMap.set_range_of_words]
    by_cases h : beg < e
    · rw [dif_pos h, ih _ _ (by omega), length_setWord]
    · rw [dif_neg h]

theorem size_set_range_of_words (m : BitMap) (beg e : Nat) :
    (m.set_range_of_words beg e).size = m.size := by
  generalize hn : e - beg = n
  induction n generalizing m beg with
  | zero => rw [BitMap.set_range_of_words, dif_neg (by omega)]
  | succ k ih =>
    rw [BitMap.set_range_of_words]
    by_cases h : beg < e
    · rw [dif_pos h, ih _ _ (by omega), size_setWord]
    · rw [dif_neg h]

theorem length_clear_range_of_words (m : BitMap) (beg e : Nat) :
    (m.clear_range_of_words beg e).map.length = m.map.length := by
  generalize hn : e - beg = n
  induction n generalizing m beg with
  | zero => rw [BitMap.clear_range_of_words, dif_neg (by omega)]
  | succ k ih =>
    rw [BitMap.clear_range_of_words]
    by_cases h : beg < e
    · rw [dif_pos h, ih _ _ (by omega), length_setWord]
    · rw [dif_neg h]

theorem size_clear_range_of_words (m : BitMap) (beg e : Nat) :
    (m.clear_range_of_words beg e).size = m.size := by
  generalize hn : e - beg = n
  induction n generalizing m beg with
  | zero => rw [BitMap.clear_range_of_words, dif_neg (by omega)]
  | succ k ih =>
    rw [BitMap.clear_range_of_words]
    by_cases h : beg < e
    · rw [dif_pos h, ih _ _ (by omega), size_setWord]
    · rw [dif_neg h]

theorem atBit_set_range_of_words (m : BitMap) (beg e : Nat) (he : e ≤ m.map.length) (i : Nat) :
    (m.set_range_of_words beg e).atBit i =
      (m.atBit i || decide (beg * 64 ≤ i ∧ i < e * 64)) := by
  generalize hn : e - beg = n
  induction n generalizing m beg with
  | zero =>
    rw [BitMap.set_range_of_words, dif_neg (by omega)]
    have : ¬(beg * 64 ≤ i ∧ i < e * 64) := by omega
    simp [this]
  | succ k ih =>
    rw [BitMap.set_range_of_words]
    by_cases h : beg < e
    · rw [dif_pos h]
      rw [ih (m.setWord beg allOnes) (beg + 1) (by rw [length_setWord]; exact he) (by omega)]
      rw [atBit_setWord]
      by_cases hc : word_index i = beg
      · have hblen : beg < m.map.length := by omega
        rw [if_pos ⟨hc, hblen⟩]
        have hj : allOnes.testBit (bit_in_word i) = true := by
          rw [testBit_allOnes]
          have : bit_in_word i < 64 := Nat.mod_lt _ (by decide)
          simp [this]
        rw [hj]
        have : (beg * 64 ≤ i ∧ i < e * 64) := by
          unfold word_index BitsPerWord at hc; omega
        simp [this]
      · rw [if_neg (fun hx => hc hx.1)]
        congr 1
        rw [decide_eq_decide]
        unfold word_index BitsPerWord at hc
        omega
    · omega

theorem atBit_clear_range_of_words (m : BitMap) (beg e : Nat) (he : e ≤ m.map.length) (i : Nat) :
    (m.clear_range_of_words beg e).atBit i =
      (m.atBit i && !decide (beg * 64 ≤ i ∧ i < e * 64)) := by
  generalize hn : e - beg = n
  induction n generalizing m beg with
  | zero =>
    rw [BitMap.clear_range_of_words, dif_neg (by omega)]
    have : ¬(beg * 64 ≤ i ∧ i < e * 64) := by omega
    simp [this]
  | succ k ih =>
    rw [BitMap.clear_range_of_words]
    by_cases h : beg < e
    · rw [dif_pos h]
      rw [ih (m.setWord beg 0) (beg + 1) (by rw [length_setWord]; exact he) (by omega)]
      rw [atBit_setWord]
      by_cases hc : word_index i = beg
      · have hblen : beg < m.map.length := by omega
        rw [if_pos ⟨hc, hblen⟩]
        rw [Nat.zero_testBit]
        have : (beg * 64 ≤ i ∧ i < e * 64) := by
          unfold word_index BitsPerWord at hc; omega
        simp [this]
      · rw [if_neg (fun hx => hc hx.1)]
        congr 2
        rw [decide_eq_decide]
        unfold word_index BitsPerWord at hc
        omega
    · omega

theorem set_large_range_of_words_eq (m : BitMap) (beg e : Nat) :
    m.set_large_range_of_words beg e = m.set_range_of_words beg e := by
  generalize hn : e - beg = n
  induction n generalizing m beg with
  | zero =>
    rw [BitMap.set_large_range_of_words, BitMap.set_range_of_words,
      dif_neg (by omega), dif_neg (by omega)]
  | succ k ih =>
    rw [BitMap.set_large_range_of_words, BitMap.set_range_of_words]
    by_cases h : beg < e
    · rw [dif_pos h, dif_pos h, ih _ _ (by omega)]
    · rw [dif_neg h, dif_neg h]

theorem clear_large_range_of_words_eq (m : BitMap) (beg e : Nat) :
    m.clear_large_range_of_words beg e = m.clear_range_of_words beg e := by
  generalize hn : e - beg = n
  induction n generalizing m beg with
  | zero =>
    rw [BitMap.clear_large_range_of_words, BitMap.clear_range_of_words,
      dif_neg (by omega), dif_neg (by omega)]
  | succ k ih =>
    rw [BitMap.clear_large_range_of_words, BitMap.clear_range_of_words]
    by_cases h : beg < e
    · rw [dif_pos h, dif_pos h, ih _ _ (by omega)]
    · rw [dif_neg h, dif_neg h]

/-! Length, size and well-formedness preservation of the range writes. -/

theorem length_set_range (m : BitMap) (beg e : Nat) :
    (m.set_range beg e).map.length = m.map.length := by
  unfold BitMap.set_range
  by_cases h : word_index_round_up beg < word_index e
  · simp only [h, if_true]
    rw [length_set_range_within_word, length_set_range_of_words, length_set_range_within_word]
  · simp only [h, if_false]
    rw [length_set_range_within_word, length_set_range_within_word]

theorem size_set_range (m : BitMap) (beg e : Nat) :
    (m.set_range beg e).size = m.size := by
  unfold BitMap.set_range
  by_cases h : word_index_round_up beg < word_index e
  · simp only [h, if_true]
    rw [size_set_range_within_word, size_set_range_of_words, size_set_range_within_word]
  · simp only [h, if_false]
    rw [size_set_range_within_word, size_set_range_within_word]

theorem length_clear_range (m : BitMap) (beg e : Nat) :
    (m.clear_range beg e).map.length = m.map.length := by
  unfold BitMap.clear_range
  by_cases h : word_index_round_up beg < word_index e
  · simp only [h, if_true]
    rw [length_clear_range_within_word, length_clear_range_of_words,
      length_clear_range_within_word]
  · simp only [h, if_false]
    rw [length_clear_range_within_word, length_clear_range_within_word]

theorem size_clear_range (m : BitMap) (beg e : Nat) :
    (m.clear_range beg e).size = m.size := by
  unfold BitMap.clear_range
  by_cases h : word_index_round_up beg < word_index e
  · simp only [h, if_true]
    rw [size_clear_range_within_word, size_clear_range_of_words, size_clear_range_within_word]
  · simp only [h, if_false]
    rw [size_clear_range_within_word, size_clear_range_within_word]

theorem WF.set_range_within_word {m : BitMap} (h : WF m) (beg e : Nat) :
    WF (m.set_range_within_word beg e) := by
  unfold BitMap.set_range_within_word
  split
  · exact h.setWord _ _
      (Nat.or_lt_two_pow (h.getWord_lt _) (wnot_lt_wordModulus _ (invMask_lt beg e)))
  · exact h

theorem WF.clear_range_within_word {m : BitMap} (h : WF m) (beg e : Nat) :
    WF (m.clear_range_within_word beg e) := by
  unfold BitMap.clear_range_within_word
  split
  · exact h.setWord _ _ (Nat.and_lt_two_pow _ (invMask_lt beg e))
  · exact h

theorem WF.set_range_of_words {m : BitMap} (h : WF m) (beg e : Nat) :
    WF (m.set_range_of_words beg e) := by
  generalize hn : e - beg = n
  induction n generalizing m beg with
  | zero => rw [BitMap.set_range_of_words, dif_neg (by omega)]; exact h
  | succ k ih =>
    rw [BitMap.set_range_of_words]
    by_cases hb : beg < e
    · rw [dif_pos hb]
      exact ih (h.setWord _ _ allOnes_lt) _ (by omega)
    · rw [dif_neg hb]; exact h

theorem WF.clear_range_of_words {m : BitMap} (h : WF m) (beg e : Nat) :
    WF (m.clear_range_of_words beg e) := by
  generalize hn : e - beg = n
  induction n generalizing m beg with
  | zero => rw [BitMap.clear_range_of_words, dif_neg (by omega)]; exact h
  | succ k ih =>
    rw [BitMap.clear_range_of_words]
    by_cases hb : beg < e
    · rw [dif_pos hb]
      exact ih (h.setWord _ _ (Nat.pos_pow_of_pos 64 (by decide))) _ (by omega)
    · rw [dif_neg hb]; exact h

theorem WF.set_range {m : BitMap} (h : WF m) (beg e : Nat) : WF (m.set_range beg e) := by
  unfold BitMap.set_range
  by_cases hc : word_index_round_up beg < word_index e
  · simp only [hc, if_true]
    exact ((h.set_range_within_word _ _).set_range_of_words _ _).set_range_within_word _ _
  · simp only [hc, if_false]
    exact (h.set_range_within_word _ _).set_range_within_word _ _

theorem WF.clear_range {m : BitMap} (h : WF m) (beg e : Nat) : WF (m.clear_range beg e) := by
  unfold BitMap.clear_range
  by_cases hc : word_index_round_up beg < word_index e
  · simp only [hc, if_true]
    exact ((h.clear_range_within_word _ _).clear_range_of_words _ _).clear_range_within_word _ _
  · simp only [hc, if_false]
    exact (h.clear_range_within_word _ _).clear_range_within_word _ _

/-! The bit-level semantics of set_range and clear_range. -/

theorem atBit_set_range (m : BitMap) (beg e i : Nat) (hbe : beg ≤ e)
    (hlen : e ≤ m.map.length * 64) :
    (m.set_range beg e).atBit i = (m.atBit i || decide (beg ≤ i ∧ i < e)) := by
  unfold BitMap.set_range
  by_cases h : word_index_round_up beg < word_index e
  · simp only [h, if_true]
    have f1 : beg ≤ bit_index (word_index_round_up beg) := by
      unfold bit_index word_index_round_up word_index BitsPerWord; omega
    have f2 : bit_index (word_index_round_up beg) ≤ (word_index beg + 1) * 64 := by
      unfold bit_index word_index_round_up word_index BitsPerWord; omega
    have f4 : bit_index (word_index e) ≤ e := by
      unfold bit_index word_index BitsPerWord; omega
    have f5 : e ≤ (word_index (bit_index (word_index e)) + 1) * 64 := by
      unfold bit_index word_index BitsPerWord; omega
    have f6 : word_index e ≤ m.map.length := by
      unfold word_index BitsPerWord; omega
    have f7 : bit_index (word_index_round_up beg) ≤ m.map.length * 64 := by
      unfold bit_index word_index_round_up word_index BitsPerWord at *; omega
    rw [atBit_set_range_within_word _ _ _ i f4 f5
      (by rw [length_set_range_of_words, length_set_range_within_word]; exact hlen)]
    rw [atBit_set_range_of_words _ _ _ (by rw [length_set_range_within_word]; exact f6) i]
    rw [atBit_set_range_within_word _ _ _ i f1 f2 f7]
    simp only [Bool.or_assoc]
    congr 1
    rw [Bool.eq_iff_iff]
    simp only [Bool.or_eq_true, decide_eq_true_eq]
    unfold bit_index word_index_round_up word_index BitsPerWord at *
    omega
  · simp only [h, if_false]
    have g1 : beg ≤ min (bit_index (word_index_round_up beg)) e := by
      unfold bit_index word_index_round_up word_index BitsPerWord; omega
    have g2 : min (bit_index (word_index_round_up beg)) e ≤ (word_index beg + 1) * 64 := by
      unfold bit_index word_index_round_up word_index BitsPerWord; omega
    have g3 : min (bit_index (word_index_round_up beg)) e ≤ m.map.length * 64 := by omega
    have g4 : min (bit_index (word_index_round_up beg)) e ≤ e := by omega
    have g5 : e ≤ (word_index (min (bit_index (word_index_round_up beg)) e) + 1) * 64 := by
      unfold bit_index word_index_round_up word_index BitsPerWord at *; omega
    rw [atBit_set_range_within_word _ _ _ i g4 g5
      (by rw [length_set_range_within_word]; exact hlen)]
    rw [atBit_set_range_within_word _ _ _ i g1 g2 g3]
    simp only [Bool.or_assoc]
    congr 1
    rw [Bool.eq_iff_iff]
    simp only [Bool.or_eq_true, decide_eq_true_eq]
    omega

theorem atBit_clear_range (m : BitMap) (beg e i : Nat) (hbe : beg ≤ e)
    (hlen : e ≤ m.map.length * 64) :
    (m.clear_range beg e).atBit i = (m.atBit i && !decide (beg ≤ i ∧ i < e)) := by
  unfold BitMap.clear_range
  by_cases h : word_index_round_up beg < word_index e
  · simp only [h, if_true]
    have f1 : beg ≤ bit_index (word_index_round_up beg) := by
      unfold bit_index word_index_round_up word_index BitsPerWord; omega
    have f2 : bit_index (word_index_round_up beg) ≤ (word_index beg + 1) * 64 := by
      unfold bit_index word_index_round_up word_index BitsPerWord; omega
    have f4 : bit_index (word_index e) ≤ e := by
      unfold bit_index word_index BitsPerWord; omega
    have f5 : e ≤ (word_index (bit_index (word_index e)) + 1) * 64 := by
      unfold bit_index word_index BitsPerWord; omega
    have f6 : word_index e ≤ m.map.length := by
      unfold word_index BitsPerWord; omega
    have f7 : bit_index (word_index_round_up beg) ≤ m.map.length * 64 := by
      unfold bit_index word_index_round_up word_index BitsPerWord at *; omega
    rw [atBit_clear_range_within_word _ _ _ i f4 f5
      (by rw [length_clear_range_of_words, length_clear_range_within_word]; exact hlen)]
    rw [atBit_clear_range_of_words _ _ _ (by rw [length_clear_range_within_word]; exact f6) i]
    rw [atBit_clear_range_within_word _ _ _ i f1 f2 f7]
    simp only [Bool.and_assoc]
    congr 1
    rw [Bool.eq_iff_iff]
    simp only [Bool.and_eq_true, Bool.not_eq_true', decide_eq_false_iff_not]
    unfold bit_index word_index_round_up word_index BitsPerWord at *
    omega
  · simp only [h, if_false]
    have g1 : beg ≤ min (bit_index (word_index_round_up beg)) e := by
      unfold bit_index word_index_round_up word_index BitsPerWord; omega
    have g2 : min (bit_index (word_index_round_up beg)) e ≤ (word_index beg + 1) * 64 := by
      unfold bit_index word_index_round_up word_index BitsPerWord; omega
    have g3 : min (bit_index (word_index_round_up beg)) e ≤ m.map.length * 64 := by omega
    have g4 : min (bit_index (word_index_round_up beg)) e ≤ e := by omega
    have g5 : e ≤ (word_index (min (bit_index (word_index_round_up beg)) e) + 1) * 64 := by
      unfold bit_index word_index_round_up word_index BitsPerWord at *; omega
    rw [atBit_clear_range_within_word _ _ _ i g4 g5
      (by rw [length_clear_range_within_word]; exact hlen)]
    rw [atBit_clear_range_within_word _ _ _ i g1 g2 g3]
    simp only [Bool.and_assoc]
    congr 1
    rw [Bool.eq_iff_iff]
    simp only [Bool.and_eq_true, Bool.not_eq_true', decide_eq_false_iff_not]
    omega

/-- Claim C2, counterexample: with a bitmap of size 8 whose bit 3 is
already set, set_range(0,8) then clear_range(0,8) clears bit 3, so the
result is not bit-for-bit equal to the pre-state. -/
theorem C2_counterexample :
    (((⟨[8], 8⟩ : BitMap).set_range 0 8).clear_range 0 8).atBit 3 = false ∧
      (⟨[8], 8⟩ : BitMap).atBit 3 = true ∧
      ((⟨[8], 8⟩ : BitMap).set_range 0 8).clear_range 0 8 ≠ (⟨[8], 8⟩ : BitMap) := by
  refine ⟨by decide, by decide, by decide⟩

/-- Claim C2 (amended): set_range(beg,end) followed by clear_range(beg,end)
leaves every bit outside the half-open range unchanged and every bit inside
it clear; the result is bit-for-bit equal to the pre-state exactly when no
bit of the range was set in the pre-state. -/
theorem C2_set_range_then_clear_range (m : BitMap) (beg e : Nat) (hm : WF m)
    (hbe : beg ≤ e) (he : e ≤ m.size) :
    (∀ i, ((m.set_range beg e).clear_range beg e).atBit i =
        if beg ≤ i ∧ i < e then false else m.atBit i) ∧
      ((∀ i, ((m.set_range beg e).clear_range beg e).atBit i = m.atBit i) ↔
        ∀ i, beg ≤ i → i < e → m.atBit i = false) := by
  have hlen : e ≤ m.map.length * 64 := le_trans he hm.size_le_storage
  have hlen2 : e ≤ (m.set_range beg e).map.length * 64 := by
    rw [length_set_range]; exact hlen
  have key : ∀ i, ((m.set_range beg e).clear_range beg e).atBit i =
      if beg ≤ i ∧ i < e then false else m.atBit i := by
    intro i
    rw [atBit_clear_range _ _ _ _ hbe hlen2, atBit_set_range _ _ _ _ hbe hlen]
    by_cases hi : beg ≤ i ∧ i < e
    · simp [hi]
    · simp [hi]
  refine ⟨key, ?_, ?_⟩
  · intro hall i h1 h2
    have hx := hall i
    rw [key i, if_pos ⟨h1, h2⟩] at hx
    exact hx.symm
  · intro hz i
    rw [key i]
    by_cases hi : beg ≤ i ∧ i < e
    · rw [if_pos hi]
      exact (hz i hi.1 hi.2).symm
    · rw [if_neg hi]

/-- Witness for claim C2's theorem at a concrete input. -/
theorem C2_set_range_then_clear_range_witness :
    WF (⟨[0], 4⟩ : BitMap) ∧ 1 ≤ 3 ∧ 3 ≤ (⟨[0], 4⟩ : BitMap).size ∧
      ((∀ i, (((⟨[0], 4⟩ : BitMap).set_range 1 3).clear_range 1 3).atBit i =
          if 1 ≤ i ∧ i < 3 then false else (⟨[0], 4⟩ : BitMap).atBit i) ∧
        ((∀ i, (((⟨[0], 4⟩ : BitMap).set_range 1 3).clear_range 1 3).atBit i =
            (⟨[0], 4⟩ : BitMap).atBit i) ↔
          ∀ i, 1 ≤ i → i < 3 → (⟨[0], 4⟩ : BitMap).atBit i = false)) :=
  ⟨by decide, by decide, by decide,
    C2_set_range_then_clear_range ⟨[0], 4⟩ 1 3 (by decide) (by decide) (by decide)⟩

theorem set_large_range_eq (m : BitMap) (beg e : Nat) :
    m.set_large_range beg e = m.set_range beg e := by
  unfold BitMap.set_large_range
  by_cases h : is_small_range_of_words (word_index_round_up beg) (word_index e) = true
  · simp only [h, if_true]
  · simp only [h, if_false]
    have hlt : word_index_round_up beg < word_index e := by
      unfold is_small_range_of_words small_range_words at h
      simp only [ge_iff_le, decide_eq_true_eq] at h
      omega
    rw [set_large_range_of_words_eq]
    unfold BitMap.set_range
    simp only [hlt, if_true]
    split <;> rfl

theorem clear_large_range_eq (m : BitMap) (beg e : Nat) :
    m.clear_large_range beg e = m.clear_range beg e := by
  unfold BitMap.clear_large_range
  by_cases h : is_small_range_of_words (word_index_round_up beg) (word_index e) = true
  · simp only [h, if_true]
  · simp only [h, if_false]
    have hlt : word_index_round_up beg < word_index e := by
      unfold is_small_range_of_words small_range_words at h
      simp only [ge_iff_le, decide_eq_true_eq] at h
      omega
    rw [clear_large_range_of_words_eq]
    unfold BitMap.clear_range
    simp only [hlt, if_true]
    split <;> rfl

/-- Claim C5: set_large_range and clear_large_range compute exactly the
same bitmap as set_range and clear_range on every input: the large-range
variant is a pure performance branch with no observable semantic
difference. -/
theorem C5_large_range_equivalence (m : BitMap) (beg e : Nat) :
    m.set_large_range beg e = m.set_range beg e ∧
      m.clear_large_range beg e = m.clear_range beg e :=
  ⟨set_large_range_eq m beg e, clear_large_range_eq m beg e⟩

/-! Population count: the byte-table counting agrees with a bit sum. -/

theorem num_set_bits_zero : num_set_bits 0 = 0 := by
  rw [num_set_bits]
  simp

theorem num_set_bits_step (w : Nat) : num_set_bits w = w % 2 + num_set_bits (w / 2) := by
  by_cases h : w = 0
  · subst h
    simp [num_set_bits_zero]
  · rw [num_set_bits, dif_neg h]
    by_cases h2 : w % 2 = 0
    · rw [if_pos h2, h2]
      omega
    · rw [if_neg h2]
      have : w % 2 = 1 := by omega
      omega

theorem num_set_bits_eq_sum (n : Nat) : ∀ w, w < 2 ^ n →
    num_set_bits w = ∑ b ∈ Finset.range n, (if w.testBit b then 1 else 0) := by
  induction n with
  | zero =>
    intro w hw
    interval_cases w
    simp [num_set_bits_zero]
  | succ k ih =>
    intro w hw
    rw [num_set_bits_step w]
    have hdiv : w / 2 < 2 ^ k := by
      rw [Nat.pow_succ] at hw
      omega
    rw [ih (w / 2) hdiv, Finset.sum_range_succ' (fun b => if w.testBit b then 1 else 0) k]
    have hbit : ∀ b, (w / 2).testBit b = w.testBit (b + 1) := by
      intro b
      rw [Nat.testBit_succ]
    have hzero : (if w.testBit 0 then 1 else 0) = w % 2 := by
      rw [Nat.testBit_zero]
      by_cases h : w % 2 = 1
      · simp [h]
      · simp [h]; omega
    simp only [hbit, hzero]
    omega

theorem num_set_bits_mod_div (k : Nat) : ∀ w,
    num_set_bits w = num_set_bits (w % 2 ^ k) + num_set_bits (w / 2 ^ k) := by
  induction k with
  | zero =>
    intro w
    simp [Nat.mod_one, num_set_bits_zero]
  | succ j ih =>
    intro w
    rw [num_set_bits_step w, ih (w / 2)]
    have e1 : w % 2 ^ (j + 1) % 2 = w % 2 :=
      Nat.mod_mod_of_dvd w (dvd_pow_self 2 (Nat.succ_ne_zero j))
    have e2 : w % 2 ^ (j + 1) / 2 = w / 2 % 2 ^ j := by
      rw [Nat.pow_succ, Nat.mul_comm, Nat.mod_mul_right_div_self]
    have e3 : w / 2 / 2 ^ j = w / 2 ^ (j + 1) := by
      rw [Nat.div_div_eq_div_mul, Nat.pow_succ, Nat.mul_comm]
    rw [num_set_bits_step (w % 2 ^ (j + 1)), e1, e2, e3]
    omega

theorem land_255_eq_mod (w : Nat) : w &&& 255 = w % 256 := by
  apply Nat.eq_of_testBit_eq
  intro j
  rw [Nat.testBit_land]
  rw [show (256 : Nat) = 2 ^ 8 by norm_num, Nat.testBit_mod_two_pow]
  rw [show (255 : Nat) = 2 ^ 8 - 1 by norm_num, Nat.testBit_two_pow_sub_one]
  rw [Bool.and_comm]

theorem countWordBytes_eq (k : Nat) : ∀ w, w < 2 ^ (8 * k) →
    countWordBytes w k = num_set_bits w := by
  induction k with
  | zero =>
    intro w hw
    interval_cases w
    simp [countWordBytes, num_set_bits_zero]
  | succ j ih =>
    intro w hw
    show num_set_bits_from_table (w &&& 255) + countWordBytes (w >>> 8) j = _
    have h256 : (2 : Nat) ^ 8 = 256 := by norm_num
    have hshift : w >>> 8 = w / 256 := by
      rw [Nat.shiftRight_eq_div_pow w 8, h256]
    have hdiv : w / 256 < 2 ^ (8 * j) := by
      apply Nat.div_lt_of_lt_mul
      have hmul : (256 : Nat) * 2 ^ (8 * j) = 2 ^ (8 * (j + 1)) := by
        rw [← h256, ← Nat.pow_add]
        ring_nf
      rw [hmul]
      exact hw
    rw [hshift, ih _ hdiv]
    unfold num_set_bits_from_table
    rw [land_255_eq_mod]
    have hsplit := num_set_bits_mod_div 8 w
    rw [h256] at hsplit
    omega

theorem foldl_add_eq_sum (f : Nat → Nat) (n : Nat) :
    ∀ a, (List.range n).foldl (fun s i => s + f i) a = a + ∑ i ∈ Finset.range n, f i := by
  induction n with
  | zero => intro a; simp
  | succ k ih =>
    intro a
    rw [List.range_succ, List.foldl_append, ih a, Finset.sum_range_succ]
    simp [Nat.add_assoc]

theorem sum_blocks (f : Nat → Nat) (L : Nat) :
    ∑ i ∈ Finset.range L, (∑ j ∈ Finset.range 64, f (i * 64 + j)) =
      ∑ q ∈ Finset.range (L * 64), f q := by
  induction L with
  | zero => simp
  | succ k ih =>
    rw [Finset.sum_range_succ, ih]
    have : (k + 1) * 64 = k * 64 + 64 := by ring
    rw [this]
    rw [← Finset.sum_range_add]

theorem count_one_bits_eq_sum (m : BitMap) (hm : WF m) :
    m.count_one_bits =
      ∑ q ∈ Finset.range (m.map.length * 64), (if m.atBit q then 1 else 0) := by
  unfold BitMap.count_one_bits
  rw [foldl_add_eq_sum, Nat.zero_add]
  have hsw : m.size_in_words = m.map.length := hm.1.symm
  rw [hsw, ← sum_blocks]
  apply Finset.sum_congr rfl
  intro i _
  have hw64 : m.getWord i < 2 ^ (8 * 8) := by
    have h1 := hm.getWord_lt i
    have h2 : (2 : Nat) ^ (8 * 8) = wordModulus := by
      unfold wordModulus BitsPerWord
      norm_num
    rw [h2]
    exact h1
  rw [countWordBytes_eq 8 _ hw64]
  have hw64b : m.getWord i < 2 ^ 64 := hm.getWord_lt i
  rw [num_set_bits_eq_sum 64 _ hw64b]
  apply Finset.sum_congr rfl
  intro j hj
  have hjlt : j < 64 := Finset.mem_range.mp hj
  congr 1
  unfold BitMap.atBit word_index bit_in_word BitsPerWord
  have e1 : (i * 64 + j) / 64 = i := by omega
  have e2 : (i * 64 + j) % 64 = j := by omega
  rw [e1, e2]

/-- Claim C7: for valid beg ≤ end ≤ size, set_range(beg,end) then
count_one_bits() yields exactly the old count plus (end - beg) minus the
number of bits of [beg,end) that were already set. -/
theorem C7_set_range_count (m : BitMap) (beg e : Nat) (hm : WF m) (hbe : beg ≤ e)
    (he : e ≤ m.size) :
    (m.set_range beg e).count_one_bits =
      m.count_one_bits +
        ((e - beg) - ((Finset.Ico beg e).filter (fun i => m.atBit i = true)).card) ∧
      ((Finset.Ico beg e).filter (fun i => m.atBit i = true)).card ≤ e - beg := by
  have hm2 : WF (m.set_range beg e) := hm.set_range beg e
  have hlen2 : (m.set_range beg e).map.length = m.map.length := length_set_range m beg e
  have hlenle : e ≤ m.map.length * 64 := le_trans he hm.size_le_storage
  have hc2 := count_one_bits_eq_sum _ hm2
  rw [hlen2] at hc2
  have hc1 := count_one_bits_eq_sum m hm
  have hstep : ∀ q, (if (m.set_range beg e).atBit q then 1 else 0) =
      (if m.atBit q then 1 else 0) +
        (if (beg ≤ q ∧ q < e) ∧ m.atBit q = false then 1 else 0) := by
    intro q
    rw [atBit_set_range m beg e q hbe hlenle]
    by_cases hq : beg ≤ q ∧ q < e
    · cases ha : m.atBit q
      · simp [hq, ha]
      · simp [hq, ha]
    · cases ha : m.atBit q
      · simp [hq, ha]
      · simp [hq, ha]
  rw [hc2, hc1]
  have hsum : ∑ q ∈ Finset.range (m.map.length * 64),
        (if (m.set_range beg e).atBit q then 1 else 0) =
      (∑ q ∈ Finset.range (m.map.length * 64), (if m.atBit q then 1 else 0)) +
        ∑ q ∈ Finset.range (m.map.length * 64),
          (if (beg ≤ q ∧ q < e) ∧ m.atBit q = false then 1 else 0) := by
    rw [← Finset.sum_add_distrib]
    exact Finset.sum_congr rfl (fun q _ => hstep q)
  rw [hsum]
  have hsub : Finset.Ico beg e ⊆ Finset.range (m.map.length * 64) := by
    intro q hq
    rw [Finset.mem_range]
    rw [Finset.mem_Ico] at hq
    omega
  have hcard1 : ∑ q ∈ Finset.range (m.map.length * 64),
        (if (beg ≤ q ∧ q < e) ∧ m.atBit q = false then 1 else 0) =
      ((Finset.Ico beg e).filter (fun q => m.atBit q = false)).card := by
    rw [← Finset.sum_subset hsub]
    · rw [Finset.card_filter]
      apply Finset.sum_congr rfl
      intro q hq
      rw [Finset.mem_Ico] at hq
      simp [hq]
    · intro q _ hq
      rw [Finset.mem_Ico] at hq
      rw [if_neg]
      intro hcontra
      exact absurd hcontra.1 hq
  rw [hcard1]
  have hfc : Finset.filter (fun a => ¬(m.atBit a = true)) (Finset.Ico beg e) =
      Finset.filter (fun q => m.atBit q = false) (Finset.Ico beg e) := by
    apply Finset.filter_congr
    intro x _
    simp
  have hsplit : ((Finset.Ico beg e).filter (fun q => m.atBit q = true)).card +
      ((Finset.Ico beg e).filter (fun q => m.atBit q = false)).card = e - beg := by
    rw [← hfc]
    rw [Finset.filter_card_add_filter_neg_card_eq_card (fun q => m.atBit q = true)]
    exact Nat.card_Ico beg e
  omega

/-- Witness for claim C7's theorem at a concrete input. -/
theorem C7_set_range_count_witness :
    WF (⟨[5], 8⟩ : BitMap) ∧ 0 ≤ 4 ∧ 4 ≤ (⟨[5], 8⟩ : BitMap).size ∧
      ((⟨[5], 8⟩ : BitMap).set_range 0 4).count_one_bits =
        (⟨[5], 8⟩ : BitMap).count_one_bits +
          ((4 - 0) -
            ((Finset.Ico 0 4).filter (fun i => (⟨[5], 8⟩ : BitMap).atBit i = true)).card) :=
  ⟨by decide, by decide, by decide,
    (C7_set_range_count ⟨[5], 8⟩ 0 4 (by decide) (by decide) (by decide)).1⟩

/-! Single-bit operations. -/

theorem atBit_set_bit (m : BitMap) (i q : Nat) (hi : i < m.map.length * 64) :
    (m.set_bit i).atBit q = (m.atBit q || decide (q = i)) := by
  unfold BitMap.set_bit
  rw [atBit_setWord]
  by_cases hc : word_index q = word_index i ∧ word_index i < m.map.length
  · rw [if_pos hc]
    rw [Nat.testBit_lor, testBit_bit_mask]
    unfold BitMap.atBit
    rw [hc.1]
    congr 1
    rw [decide_eq_decide]
    unfold word_index bit_in_word BitsPerWord at *
    omega
  · rw [if_neg hc]
    have hne : ¬(q = i) := by
      intro h
      subst h
      exact hc ⟨rfl, by unfold word_index BitsPerWord at *; omega⟩
    simp [hne]

theorem atBit_clear_bit (m : BitMap) (i q : Nat) (hi : i < m.map.length * 64) :
    (m.clear_bit i).atBit q = (m.atBit q && !decide (q = i)) := by
  unfold BitMap.clear_bit
  rw [atBit_setWord]
  by_cases hc : word_index q = word_index i ∧ word_index i < m.map.length
  · rw [if_pos hc]
    have hj : bit_in_word q < 64 := Nat.mod_lt _ (by decide)
    rw [Nat.testBit_land, testBit_wnot_lt _ _ hj, testBit_bit_mask]
    unfold BitMap.atBit
    rw [hc.1]
    congr 2
    rw [decide_eq_decide]
    unfold word_index bit_in_word BitsPerWord at *
    omega
  · rw [if_neg hc]
    have hne : ¬(q = i) := by
      intro h
      subst h
      exact hc ⟨rfl, by unfold word_index BitsPerWord at *; omega⟩
    simp [hne]

theorem length_set_bit (m : BitMap) (i : Nat) :
    (m.set_bit i).map.length = m.map.length := length_setWord ..

theorem length_clear_bit (m : BitMap) (i : Nat) :
    (m.clear_bit i).map.length = m.map.length := length_setWord ..

theorem size_set_bit (m : BitMap) (i : Nat) : (m.set_bit i).size = m.size := rfl

theorem size_clear_bit (m : BitMap) (i : Nat) : (m.clear_bit i).size = m.size := rfl

theorem bit_mask_lt (i : Nat) : bit_mask i < wordModulus := by
  rw [bit_mask_eq]
  have h1 : i % 64 < 64 := Nat.mod_lt _ (by decide)
  unfold wordModulus BitsPerWord
  exact Nat.pow_lt_pow_right (by decide) h1

theorem WF.set_bit {m : BitMap} (h : WF m) (i : Nat) : WF (m.set_bit i) :=
  h.setWord _ _ (Nat.or_lt_two_pow (h.getWord_lt _) (bit_mask_lt i))

theorem WF.clear_bit {m : BitMap} (h : WF m) (i : Nat) : WF (m.clear_bit i) :=
  h.setWord _ _ (Nat.and_lt_two_pow _ (wnot_lt_wordModulus _ (bit_mask_lt i)))

/-! Tail merging. -/

theorem testBit_merge_tail (nv ov r j : Nat) (hj : j < 64) :
    (merge_tail_of_map nv ov r).testBit j =
      if j < r then nv.testBit j else ov.testBit j := by
  unfold merge_tail_of_map
  rw [Nat.testBit_lor, Nat.testBit_land, Nat.testBit_land, testBit_tail_mask,
    testBit_wnot_lt _ _ hj, testBit_tail_mask]
  by_cases h : j < r <;> simp [h]

theorem merge_tail_lt (nv ov r : Nat) (hr : r ≤ 64) :
    merge_tail_of_map nv ov r < wordModulus := by
  unfold merge_tail_of_map
  exact Nat.or_lt_two_pow (Nat.and_lt_two_pow _ (tail_mask_lt r hr))
    (Nat.and_lt_two_pow _ (wnot_lt_wordModulus _ (tail_mask_lt r hr)))

/-! Word-wise folds over the storage, used by the set-algebra loops. -/

theorem foldl_write_length (F : BitMap → Nat → BitMap) (g : Nat → Nat → Nat)
    (hF : ∀ d i, F d i = d.setWord i (g i (d.getWord i))) (l : List Nat) :
    ∀ m : BitMap, (l.foldl F m).map.length = m.map.length := by
  induction l with
  | nil => intro m; rfl
  | cons x xs ih =>
    intro m
    rw [List.foldl_cons, ih, hF, length_setWord]

theorem foldl_write_size (F : BitMap → Nat → BitMap) (g : Nat → Nat → Nat)
    (hF : ∀ d i, F d i = d.setWord i (g i (d.getWord i))) (l : List Nat) :
    ∀ m : BitMap, (l.foldl F m).size = m.size := by
  induction l with
  | nil => intro m; rfl
  | cons x xs ih =>
    intro m
    rw [List.foldl_cons, ih, hF, size_setWord]

theorem foldl_write_getWord (F : BitMap → Nat → BitMap) (g : Nat → Nat → Nat)
    (hF : ∀ d i, F d i = d.setWord i (g i (d.getWord i))) (n : Nat) :
    ∀ (m : BitMap) (k : Nat), ((List.range n).foldl F m).getWord k =
      if k < n ∧ k < m.map.length then g k (m.getWord k) else m.getWord k := by
  induction n with
  | zero =>
    intro m k
    simp
  | succ t ih =>
    intro m k
    rw [List.range_succ, List.foldl_append]
    simp only [List.foldl_cons, List.foldl_nil]
    rw [hF, getWord_setWord, foldl_write_length F g hF, ih m t, ih m k]
    have inner : (if t < t ∧ t < m.map.length then g t (m.getWord t) else m.getWord t) =
        m.getWord t := if_neg (by omega)
    rw [inner]
    by_cases h1 : k = t ∧ t < m.map.length
    · rw [if_pos h1, if_pos ⟨by omega, by omega⟩]
      rw [h1.1]
    · rw [if_neg h1]
      by_cases h2 : k < t ∧ k < m.map.length
      · rw [if_pos h2, if_pos ⟨by omega, h2.2⟩]
      · rw [if_neg h2, if_neg (by omega)]

theorem foldl_write_WF (F : BitMap → Nat → BitMap) (g : Nat → Nat → Nat)
    (hF : ∀ d i, F d i = d.setWord i (g i (d.getWord i)))
    (hg : ∀ i w, w < wordModulus → g i w < wordModulus) (l : List Nat) :
    ∀ m : BitMap, WF m → WF (l.foldl F m) := by
  induction l with
  | nil => intro m hm; exact hm
  | cons x xs ih =>
    intro m hm
    rw [List.foldl_cons]
    apply ih
    rw [hF]
    exact hm.setWord _ _ (hg _ _ (hm.getWord_lt _))

theorem foldl_pair_snd (F : Bool × BitMap → Nat → Bool × BitMap) (G : BitMap → Nat → BitMap)
    (hF : ∀ p i, (F p i).2 = G p.2 i) (l : List Nat) :
    ∀ (b : Bool) (m : BitMap), (l.foldl F (b, m)).2 = l.foldl G m := by
  induction l with
  | nil => intro b m; rfl
  | cons x xs ih =>
    intro b m
    rw [List.foldl_cons, List.foldl_cons]
    have heta : F (b, m) x = ((F (b, m) x).1, (F (b, m) x).2) := rfl
    rw [heta, ih, hF]

/-! Set algebra characterizations. -/

theorem length_set_union (m o : BitMap) : (m.set_union o).map.length = m.map.length := by
  unfold BitMap.set_union
  by_cases h : bit_in_word m.size > 0
  · simp only [h, if_true]
    rw [length_setWord, foldl_write_length _ (fun i w => w ||| o.getWord i) (fun d i => rfl)]
  · simp only [h, if_false]
    rw [foldl_write_length _ (fun i w => w ||| o.getWord i) (fun d i => rfl)]

theorem atBit_set_union (m o : BitMap) (hm : WF m) (q : Nat) :
    (m.set_union o).atBit q =
      if q < m.size then (m.atBit q || o.atBit q) else m.atBit q := by
  have hlen : m.map.length = calc_size_in_words m.size := hm.1
  have hfold := foldl_write_getWord _ (fun i w => w ||| o.getWord i) (fun d i => rfl)
    (word_index m.size) m
  unfold BitMap.set_union
  by_cases h : bit_in_word m.size > 0
  · simp only [h, if_true]
    rw [atBit_setWord]
    rw [foldl_write_length _ (fun i w => w ||| o.getWord i) (fun d i => rfl)]
    have hlim : word_index m.size < m.map.length := by
      unfold word_index bit_in_word calc_size_in_words BitsPerWord at *
      omega
    by_cases hc : word_index q = word_index m.size
    · rw [if_pos ⟨hc, hlim⟩]
      have hj : bit_in_word q < 64 := Nat.mod_lt _ (by decide)
      rw [hfold (word_index m.size), if_neg (by omega)]
      rw [testBit_merge_tail _ _ _ _ hj, Nat.testBit_lor]
      unfold BitMap.atBit
      rw [hc]
      by_cases hq : q < m.size
      · rw [if_pos (by unfold word_index bit_in_word BitsPerWord at *; omega),
          if_pos hq]
      · rw [if_neg (by unfold word_index bit_in_word BitsPerWord at *; omega),
          if_neg hq]
    · rw [if_neg (fun hx => hc hx.1)]
      unfold BitMap.atBit
      rw [hfold (word_index q)]
      by_cases h2 : word_index q < word_index m.size ∧ word_index q < m.map.length
      · rw [if_pos h2, Nat.testBit_lor]
        rw [if_pos (by unfold word_index bit_in_word calc_size_in_words BitsPerWord at *; omega)]
      · rw [if_neg h2]
        rw [if_neg (by unfold word_index bit_in_word calc_size_in_words BitsPerWord at *; omega)]
  · simp only [h, if_false]
    unfold BitMap.atBit
    rw [hfold (word_index q)]
    by_cases h2 : word_index q < word_index m.size ∧ word_index q < m.map.length
    · rw [if_pos h2, Nat.testBit_lor]
      rw [if_pos (by unfold word_index bit_in_word calc_size_in_words BitsPerWord at *; omega)]
    · rw [if_neg h2]
      rw [if_neg (by unfold word_index bit_in_word calc_size_in_words BitsPerWord at *; omega)]

theorem length_set_difference (m o : BitMap) : (m.set_difference o).map.length = m.map.length := by
  unfold BitMap.set_difference
  by_cases h : bit_in_word m.size > 0
  · simp only [h, if_true]
    rw [length_setWord, foldl_write_length _ (fun i w => w &&& wnot (o.getWord i)) (fun d i => rfl)]
  · simp only [h, if_false]
    rw [foldl_write_length _ (fun i w => w &&& wnot (o.getWord i)) (fun d i => rfl)]

theorem atBit_set_difference (m o : BitMap) (hm : WF m) (q : Nat) :
    (m.set_difference o).atBit q =
      if q < m.size then (m.atBit q && !o.atBit q) else m.atBit q := by
  have hlen : m.map.length = calc_size_in_words m.size := hm.1
  have hfold := foldl_write_getWord _ (fun i w => w &&& wnot (o.getWord i)) (fun d i => rfl)
    (word_index m.size) m
  unfold BitMap.set_difference
  by_cases h : bit_in_word m.size > 0
  · simp only [h, if_true]
    rw [atBit_setWord]
    rw [foldl_write_length _ (fun i w => w &&& wnot (o.getWord i)) (fun d i => rfl)]
    have hlim : word_index m.size < m.map.length := by
      unfold word_index bit_in_word calc_size_in_words BitsPerWord at *
      omega
    by_cases hc : word_index q = word_index m.size
    · rw [if_pos ⟨hc, hlim⟩]
      have hj : bit_in_word q < 64 := Nat.mod_lt _ (by decide)
      rw [hfold (word_index m.size), if_neg (by omega)]
      rw [testBit_merge_tail _ _ _ _ hj, Nat.testBit_land, testBit_wnot_lt _ _ hj]
      unfold BitMap.atBit
      rw [hc]
      by_cases hq : q < m.size
      · rw [if_pos (by unfold word_index bit_in_word BitsPerWord at *; omega),
          if_pos hq]
      · rw [if_neg (by unfold word_index bit_in_word BitsPerWord at *; omega),
          if_neg hq]
    · rw [if_neg (fun hx => hc hx.1)]
      unfold BitMap.atBit
      rw [hfold (word_index q)]
      by_cases h2 : word_index q < word_index m.size ∧ word_index q < m.map.length
      · have hj : bit_in_word q < 64 := Nat.mod_lt _ (by decide)
        rw [if_pos h2, Nat.testBit_land, testBit_wnot_lt _ _ hj]
        rw [if_pos (by unfold word_index bit_in_word calc_size_in_words BitsPerWord at *; omega)]
      · rw [if_neg h2]
        rw [if_neg (by unfold word_index bit_in_word calc_size_in_words BitsPerWord at *; omega)]
  · simp only [h, if_false]
    unfold BitMap.atBit
    rw [hfold (word_index q)]
    by_cases h2 : word_index q < word_index m.size ∧ word_index q < m.map.length
    · have hj : bit_in_word q < 64 := Nat.mod_lt _ (by decide)
      rw [if_pos h2, Nat.testBit_land, testBit_wnot_lt _ _ hj]
      rw [if_pos (by unfold word_index bit_in_word calc_size_in_words BitsPerWord at *; omega)]
    · rw [if_neg h2]
      rw [if_neg (by unfold word_index bit_in_word calc_size_in_words BitsPerWord at *; omega)]

theorem length_set_intersection (m o : BitMap) : (m.set_intersection o).map.length = m.map.length := by
  unfold BitMap.set_intersection
  by_cases h : bit_in_word m.size > 0
  · simp only [h, if_true]
    rw [length_setWord, foldl_write_length _ (fun i w => w &&& o.getWord i) (fun d i => rfl)]
  · simp only [h, if_false]
    rw [foldl_write_length _ (fun i w => w &&& o.getWord i) (fun d i => rfl)]

theorem atBit_set_intersection (m o : BitMap) (hm : WF m) (q : Nat) :
    (m.set_intersection o).atBit q =
      if q < m.size then (m.atBit q && o.atBit q) else m.atBit q := by
  have hlen : m.map.length = calc_size_in_words m.size := hm.1
  have hfold := foldl_write_getWord _ (fun i w => w &&& o.getWord i) (fun d i => rfl)
    (word_index m.size) m
  unfold BitMap.set_intersection
  by_cases h : bit_in_word m.size > 0
  · simp only [h, if_true]
    rw [atBit_setWord]
    rw [foldl_write_length _ (fun i w => w &&& o.getWord i) (fun d i => rfl)]
    have hlim : word_index m.size < m.map.length := by
      unfold word_index bit_in_word calc_size_in_words BitsPerWord at *
      omega
    by_cases hc : word_index q = word_index m.size
    · rw [if_pos ⟨hc, hlim⟩]
      have hj : bit_in_word q < 64 := Nat.mod_lt _ (by decide)
      rw [hfold (word_index m.size), if_neg (by omega)]
      rw [testBit_merge_tail _ _ _ _ hj, Nat.testBit_land]
      unfold BitMap.atBit
      rw [hc]
      by_cases hq : q < m.size
      · rw [if_pos (by unfold word_index bit_in_word BitsPerWord at *; omega),
          if_pos hq]
      · rw [if_neg (by unfold word_index bit_in_word BitsPerWord at *; omega),
          if_neg hq]
    · rw [if_neg (fun hx => hc hx.1)]
      unfold BitMap.atBit
      rw [hfold (word_index q)]
      by_cases h2 : word_index q < word_index m.size ∧ word_index q < m.map.length
      · rw [if_pos h2, Nat.testBit_land]
        rw [if_pos (by unfold word_index bit_in_word calc_size_in_words BitsPerWord at *; omega)]
      · rw [if_neg h2]
        rw [if_neg (by unfold word_index bit_in_word calc_size_in_words BitsPerWord at *; omega)]
  · simp only [h, if_false]
    unfold BitMap.atBit
    rw [hfold (word_index q)]
    by_cases h2 : word_index q < word_index m.size ∧ word_index q < m.map.length
    · rw [if_pos h2, Nat.testBit_land]
      rw [if_pos (by unfold word_index bit_in_word calc_size_in_words BitsPerWord at *; omega)]
    · rw [if_neg h2]
      rw [if_neg (by unfold word_index bit_in_word calc_size_in_words BitsPerWord at *; omega)]

theorem length_set_from (m o : BitMap) : (m.set_from o).map.length = m.map.length := by
  unfold BitMap.set_from
  by_cases h : bit_in_word m.size > 0
  · simp only [h, if_true]
    rw [length_setWord, foldl_write_length _ (fun i w => o.getWord i) (fun d i => rfl)]
  · simp only [h, if_false]
    rw [foldl_write_length _ (fun i w => o.getWord i) (fun d i => rfl)]

theorem atBit_set_from (m o : BitMap) (hm : WF m) (q : Nat) :
    (m.set_from o).atBit q =
      if q < m.size then (o.atBit q) else m.atBit q := by
  have hlen : m.map.length = calc_size_in_words m.size := hm.1
  have hfold := foldl_write_getWord _ (fun i w => o.getWord i) (fun d i => rfl)
    (word_index m.size) m
  unfold BitMap.set_from
  by_cases h : bit_in_word m.size > 0
  · simp only [h, if_true]
    rw [atBit_setWord]
    rw [foldl_write_length _ (fun i w => o.getWord i) (fun d i => rfl)]
    have hlim : word_index m.size < m.map.length := by
      unfold word_index bit_in_word calc_size_in_words BitsPerWord at *
      omega
    by_cases hc : word_index q = word_index m.size
    · rw [if_pos ⟨hc, hlim⟩]
      have hj : bit_in_word q < 64 := Nat.mod_lt _ (by decide)
      rw [hfold (word_index m.size), if_neg (by omega)]
      rw [testBit_merge_tail _ _ _ _ hj]
      unfold BitMap.atBit
      rw [hc]
      by_cases hq : q < m.size
      · rw [if_pos (by unfold word_index bit_in_word BitsPerWord at *; omega),
          if_pos hq]
      · rw [if_neg (by unfold word_index bit_in_word BitsPerWord at *; omega),
          if_neg hq]
    · rw [if_neg (fun hx => hc hx.1)]
      unfold BitMap.atBit
      rw [hfold (word_index q)]
      by_cases h2 : word_index q < word_index m.size ∧ word_index q < m.map.length
      · rw [if_pos h2]
        rw [if_pos (by unfold word_index bit_in_word calc_size_in_words BitsPerWord at *; omega)]
      · rw [if_neg h2]
        rw [if_neg (by unfold word_index bit_in_word calc_size_in_words BitsPerWord at *; omega)]
  · simp only [h, if_false]
    unfold BitMap.atBit
    rw [hfold (word_index q)]
    by_cases h2 : word_index q < word_index m.size ∧ word_index q < m.map.length
    · rw [if_pos h2]
      rw [if_pos (by unfold word_index bit_in_word calc_size_in_words BitsPerWord at *; omega)]
    · rw [if_neg h2]
      rw [if_neg (by unfold word_index bit_in_word calc_size_in_words BitsPerWord at *; omega)]

theorem size_set_union (m o : BitMap) : (m.set_union o).size = m.size := by
  unfold BitMap.set_union
  by_cases h : bit_in_word m.size > 0
  · simp only [h, if_true]
    rw [size_setWord, foldl_write_size _ (fun i w => w ||| o.getWord i) (fun d i => rfl)]
  · simp only [h, if_false]
    rw [foldl_write_size _ (fun i w => w ||| o.getWord i) (fun d i => rfl)]

theorem size_set_difference (m o : BitMap) : (m.set_difference o).size = m.size := by
  unfold BitMap.set_difference
  by_cases h : bit_in_word m.size > 0
  · simp only [h, if_true]
    rw [size_setWord, foldl_write_size _ (fun i w => w &&& wnot (o.getWord i)) (fun d i => rfl)]
  · simp only [h, if_false]
    rw [foldl_write_size _ (fun i w => w &&& wnot (o.getWord i)) (fun d i => rfl)]

theorem size_set_intersection (m o : BitMap) : (m.set_intersection o).size = m.size := by
  unfold BitMap.set_intersection
  by_cases h : bit_in_word m.size > 0
  · simp only [h, if_true]
    rw [size_setWord, foldl_write_size _ (fun i w => w &&& o.getWord i) (fun d i => rfl)]
  · simp only [h, if_false]
    rw [foldl_write_size _ (fun i w => w &&& o.getWord i) (fun d i => rfl)]

theorem size_set_from (m o : BitMap) : (m.set_from o).size = m.size := by
  unfold BitMap.set_from
  by_cases h : bit_in_word m.size > 0
  · simp only [h, if_true]
    rw [size_setWord, foldl_write_size _ (fun i w => o.getWord i) (fun d i => rfl)]
  · simp only [h, if_false]
    rw [foldl_write_size _ (fun i w => o.getWord i) (fun d i => rfl)]

theorem WF.set_union {m : BitMap} (hm : WF m) (o : BitMap) (ho : WF o) :
    WF (m.set_union o) := by
  unfold BitMap.set_union
  have hfull := foldl_write_WF _ (fun i w => w ||| o.getWord i) (fun d i => rfl)
    (fun i w hw => Nat.or_lt_two_pow hw (ho.getWord_lt i)) (List.range (word_index m.size)) m hm
  by_cases h : bit_in_word m.size > 0
  · simp only [h, if_true]
    exact hfull.setWord _ _ (merge_tail_lt _ _ _ (le_of_lt (Nat.mod_lt _ (by decide))))
  · simp only [h, if_false]
    exact hfull

theorem WF.set_difference {m : BitMap} (hm : WF m) (o : BitMap) :
    WF (m.set_difference o) := by
  unfold BitMap.set_difference
  have hfull := foldl_write_WF _ (fun i w => w &&& wnot (o.getWord i)) (fun d i => rfl)
    (fun i w hw => lt_of_le_of_lt (Nat.and_le_left) hw)
    (List.range (word_index m.size)) m hm
  by_cases h : bit_in_word m.size > 0
  · simp only [h, if_true]
    exact hfull.setWord _ _ (merge_tail_lt _ _ _ (le_of_lt (Nat.mod_lt _ (by decide))))
  · simp only [h, if_false]
    exact hfull

theorem WF.set_intersection {m : BitMap} (hm : WF m) (o : BitMap) :
    WF (m.set_intersection o) := by
  unfold BitMap.set_intersection
  have hfull := foldl_write_WF _ (fun i w => w &&& o.getWord i) (fun d i => rfl)
    (fun i w hw => lt_of_le_of_lt (Nat.and_le_left) hw)
    (List.range (word_index m.size)) m hm
  by_cases h : bit_in_word m.size > 0
  · simp only [h, if_true]
    exact hfull.setWord _ _ (merge_tail_lt _ _ _ (le_of_lt (Nat.mod_lt _ (by decide))))
  · simp only [h, if_false]
    exact hfull

theorem WF.set_from {m : BitMap} (hm : WF m) (o : BitMap) (ho : WF o) :
    WF (m.set_from o) := by
  unfold BitMap.set_from
  have hfull := foldl_write_WF _ (fun i w => o.getWord i) (fun d i => rfl)
    (fun i w _ => ho.getWord_lt i)
    (List.range (word_index m.size)) m hm
  by_cases h : bit_in_word m.size > 0
  · simp only [h, if_true]
    exact hfull.setWord _ _ (merge_tail_lt _ _ _ (le_of_lt (Nat.mod_lt _ (by decide))))
  · simp only [h, if_false]
    exact hfull

theorem set_union_with_result_snd (m o : BitMap) :
    (m.set_union_with_result o).2 = m.set_union o := by
  unfold BitMap.set_union_with_result BitMap.set_union
  by_cases h : bit_in_word m.size > 0
  · simp only [h, if_true]
    rw [foldl_pair_snd _ (fun d i => d.setWord i (d.getWord i ||| o.getWord i)) (fun p i => rfl)]
  · simp only [h, if_false]
    exact foldl_pair_snd _ (fun d i => d.setWord i (d.getWord i ||| o.getWord i))
      (fun p i => rfl) (List.range (word_index m.size)) false m

theorem set_difference_with_result_snd (m o : BitMap) :
    (m.set_difference_with_result o).2 = m.set_difference o := by
  unfold BitMap.set_difference_with_result BitMap.set_difference
  by_cases h : bit_in_word m.size > 0
  · simp only [h, if_true]
    rw [foldl_pair_snd _ (fun d i => d.setWord i (d.getWord i &&& wnot (o.getWord i)))
      (fun p i => rfl)]
  · simp only [h, if_false]
    exact foldl_pair_snd _ (fun d i => d.setWord i (d.getWord i &&& wnot (o.getWord i)))
      (fun p i => rfl) (List.range (word_index m.size)) false m

theorem set_intersection_with_result_snd (m o : BitMap) :
    (m.set_intersection_with_result o).2 = m.set_intersection o := by
  unfold BitMap.set_intersection_with_result BitMap.set_intersection
  by_cases h : bit_in_word m.size > 0
  · simp only [h, if_true]
    rw [foldl_pair_snd _ (fun d i => d.setWord i (d.getWord i &&& o.getWord i))
      (fun p i => rfl)]
  · simp only [h, if_false]
    exact foldl_pair_snd _ (fun d i => d.setWord i (d.getWord i &&& o.getWord i))
      (fun p i => rfl) (List.range (word_index m.size)) false m

/-- Claim C10: every whole-bitmap mutating set-algebra operation on
equal-size bitmaps (set_union, set_intersection, set_difference, their
_with_result variants, and set_from) leaves the destination's storage bits
at positions at or beyond size unchanged: the merge_tail_of_map masking
confines every write to bit positions below size. -/
theorem C10_set_algebra_tail_frame (m o : BitMap) (hm : WF m) (ho : WF o)
    (hsz : o.size = m.size) (q : Nat) (hq : m.size ≤ q) :
    (m.set_union o).atBit q = m.atBit q ∧
      (m.set_difference o).atBit q = m.atBit q ∧
      (m.set_intersection o).atBit q = m.atBit q ∧
      (m.set_union_with_result o).2.atBit q = m.atBit q ∧
      (m.set_difference_with_result o).2.atBit q = m.atBit q ∧
      (m.set_intersection_with_result o).2.atBit q = m.atBit q ∧
      (m.set_from o).atBit q = m.atBit q := by
  have hnq : ¬(q < m.size) := by omega
  have h1 := atBit_set_union m o hm q
  have h2 := atBit_set_difference m o hm q
  have h3 := atBit_set_intersection m o hm q
  have h4 := atBit_set_from m o hm q
  rw [if_neg hnq] at h1 h2 h3 h4
  refine ⟨h1, h2, h3, ?_, ?_, ?_, h4⟩
  · rw [set_union_with_result_snd]; exact h1
  · rw [set_difference_with_result_snd]; exact h2
  · rw [set_intersection_with_result_snd]; exact h3

/-- Witness for claim C10's theorem at a concrete input: two-word bitmaps
of size 66, checked at tail position 67. -/
theorem C10_set_algebra_tail_frame_witness :
    WF (⟨[1, 3], 66⟩ : BitMap) ∧ WF (⟨[2, 1], 66⟩ : BitMap) ∧
      (⟨[2, 1], 66⟩ : BitMap).size = (⟨[1, 3], 66⟩ : BitMap).size ∧ 66 ≤ 67 ∧
      ((⟨[1, 3], 66⟩ : BitMap).set_union ⟨[2, 1], 66⟩).atBit 67 =
        (⟨[1, 3], 66⟩ : BitMap).atBit 67 ∧
      ((⟨[1, 3], 66⟩ : BitMap).set_from ⟨[2, 1], 66⟩).atBit 67 =
        (⟨[1, 3], 66⟩ : BitMap).atBit 67 :=
  ⟨by decide, by decide, by decide, by decide,
    (C10_set_algebra_tail_frame ⟨[1, 3], 66⟩ ⟨[2, 1], 66⟩ (by decide) (by decide) (by decide)
      67 (by decide)).1,
    (C10_set_algebra_tail_frame ⟨[1, 3], 66⟩ ⟨[2, 1], 66⟩ (by decide) (by decide) (by decide)
      67 (by decide)).2.2.2.2.2.2⟩

/-! Query characterizations: word-level bridges. -/

theorem eq_zero_iff_testBit (x : Nat) : x = 0 ↔ ∀ j, x.testBit j = false := by
  constructor
  · intro h j
    rw [h]
    exact Nat.zero_testBit j
  · intro h
    apply Nat.eq_of_testBit_eq
    intro j
    rw [h j, Nat.zero_testBit]

theorem atBit_decomp (m : BitMap) (w j : Nat) (hj : j < 64) :
    m.atBit (w * 64 + j) = (m.getWord w).testBit j := by
  unfold BitMap.atBit word_index bit_in_word BitsPerWord
  rw [show (w * 64 + j) / 64 = w by omega, show (w * 64 + j) % 64 = j by omega]

theorem word_subset_iff (mw ow : Nat) (hmw : mw < wordModulus) (how : ow < wordModulus) :
    wnot mw &&& ow = 0 ↔ ∀ j, j < 64 → ow.testBit j = true → mw.testBit j = true := by
  rw [eq_zero_iff_testBit]
  constructor
  · intro h j hj hb
    have hx := h j
    rw [Nat.testBit_land, testBit_wnot_lt _ _ hj, hb] at hx
    simpa using hx
  · intro h j
    rw [Nat.testBit_land]
    by_cases hj : j < 64
    · rw [testBit_wnot_lt _ _ hj]
      cases hb : ow.testBit j
      · simp
      · simp [h j hj hb]
    · rw [testBit_ge_64 ow j how (by omega)]
      simp

theorem tail_subset_iff (mw ow r : Nat) (hr : r ≤ 64) :
    tail_of_map (wnot mw &&& ow) r = 0 ↔
      ∀ j, j < r → ow.testBit j = true → mw.testBit j = true := by
  unfold tail_of_map
  rw [eq_zero_iff_testBit]
  constructor
  · intro h j hj hb
    have hj64 : j < 64 := by omega
    have hx := h j
    rw [Nat.testBit_land, Nat.testBit_land, testBit_wnot_lt _ _ hj64, testBit_tail_mask,
      hb] at hx
    simpa [hj] using hx
  · intro h j
    rw [Nat.testBit_land, testBit_tail_mask]
    by_cases hj : j < r
    · rw [Nat.testBit_land, testBit_wnot_lt _ _ (by omega)]
      cases hb : ow.testBit j
      · simp
      · simp [hj, h j hj hb]
    · simp [hj]

theorem word_inter_iff (mw ow : Nat) (hmw : mw < wordModulus) :
    mw &&& ow ≠ 0 ↔ ∃ j, j < 64 ∧ mw.testBit j = true ∧ ow.testBit j = true := by
  rw [Ne, eq_zero_iff_testBit]
  push_neg
  constructor
  · rintro ⟨j, hj⟩
    rw [Nat.testBit_land] at hj
    have hj64 : j < 64 := by
      by_contra hc
      rw [testBit_ge_64 mw j hmw (by omega)] at hj
      simp at hj
    simp only [ne_eq, Bool.not_eq_false, Bool.and_eq_true] at hj
    exact ⟨j, hj64, hj.1, hj.2⟩
  · rintro ⟨j, hj64, h1, h2⟩
    exact ⟨j, by rw [Nat.testBit_land, h1, h2]; simp⟩

theorem tail_inter_iff (mw ow r : Nat) (hr : r ≤ 64) :
    tail_of_map (mw &&& ow) r ≠ 0 ↔
      ∃ j, j < r ∧ mw.testBit j = true ∧ ow.testBit j = true := by
  unfold tail_of_map
  rw [Ne, eq_zero_iff_testBit]
  push_neg
  constructor
  · rintro ⟨j, hj⟩
    rw [Nat.testBit_land, Nat.testBit_land, testBit_tail_mask] at hj
    simp only [Bool.and_eq_true, Bool.not_eq_false, decide_eq_true_eq] at hj
    exact ⟨j, hj.2, hj.1.1, hj.1.2⟩
  · rintro ⟨j, hjr, h1, h2⟩
    refine ⟨j, ?_⟩
    rw [Nat.testBit_land, Nat.testBit_land, testBit_tail_mask, h1, h2]
    simp [hjr]

theorem word_full_iff (mw : Nat) (hmw : mw < wordModulus) :
    wnot mw = 0 ↔ ∀ j, j < 64 → mw.testBit j = true := by
  rw [eq_zero_iff_testBit]
  constructor
  · intro h j hj
    have hx := h j
    rw [testBit_wnot_lt _ _ hj] at hx
    simpa using hx
  · intro h j
    rw [testBit_wnot]
    by_cases hj : j < 64
    · simp [hj, h j hj]
    · simp [hj, testBit_ge_64 mw j hmw (by omega)]

theorem tail_full_iff (mw r : Nat) (hr : r ≤ 64) :
    tail_of_map (wnot mw) r = 0 ↔ ∀ j, j < r → mw.testBit j = true := by
  unfold tail_of_map
  rw [eq_zero_iff_testBit]
  constructor
  · intro h j hj
    have hx := h j
    rw [Nat.testBit_land, testBit_wnot_lt _ _ (by omega), testBit_tail_mask] at hx
    simpa [hj] using hx
  · intro h j
    rw [Nat.testBit_land, testBit_tail_mask]
    by_cases hj : j < r
    · rw [testBit_wnot_lt _ _ (by omega)]
      simp [hj, h j hj]
    · simp [hj]

/-! Whole-query characterizations. -/

theorem contains_iff (m o : BitMap) (hm : WF m) (ho : WF o) :
    m.contains o = true ↔ ∀ i, i < m.size → o.atBit i = true → m.atBit i = true := by
  unfold BitMap.contains
  rw [Bool.and_eq_true, List.all_eq_true, Bool.or_eq_true, beq_iff_eq, beq_iff_eq]
  have hr64 : bit_in_word m.size ≤ 64 := by unfold bit_in_word BitsPerWord; omega
  constructor
  · rintro ⟨hA, hB⟩ i hi
    have hj64 : i % 64 < 64 := Nat.mod_lt _ (by decide)
    have hidecomp : i = i / 64 * 64 + i % 64 := by omega
    rcases Nat.lt_or_ge (i / 64) (word_index m.size) with hw | hw
    · have hx := hA (i / 64) (List.mem_range.mpr hw)
      rw [beq_iff_eq, word_subset_iff _ _ (hm.getWord_lt _) (ho.getWord_lt _)] at hx
      rw [hidecomp, atBit_decomp o _ _ hj64, atBit_decomp m _ _ hj64]
      exact hx (i % 64) hj64
    · have hweq : i / 64 = word_index m.size ∧ i % 64 < bit_in_word m.size := by
        unfold word_index bit_in_word BitsPerWord at *
        omega
      rcases hB with h0 | ht
      · exfalso
        unfold bit_in_word BitsPerWord at *
        omega
      · rw [tail_subset_iff _ _ _ hr64] at ht
        rw [hidecomp, atBit_decomp o _ _ hj64, atBit_decomp m _ _ hj64, hweq.1]
        exact ht (i % 64) hweq.2
  · intro h
    constructor
    · intro x hx
      rw [List.mem_range] at hx
      rw [beq_iff_eq, word_subset_iff _ _ (hm.getWord_lt _) (ho.getWord_lt _)]
      intro j hj hb
      have hlt : x * 64 + j < m.size := by
        unfold word_index BitsPerWord at hx
        omega
      have := h (x * 64 + j) hlt
      rw [atBit_decomp o _ _ hj, atBit_decomp m _ _ hj] at this
      exact this hb
    · by_cases h0 : bit_in_word m.size = 0
      · exact Or.inl h0
      · refine Or.inr ?_
        rw [tail_subset_iff _ _ _ hr64]
        intro j hj hb
        have hlt : word_index m.size * 64 + j < m.size := by
          unfold word_index bit_in_word BitsPerWord at *
          omega
        have := h (word_index m.size * 64 + j) hlt
        rw [atBit_decomp o _ _ (by unfold bit_in_word BitsPerWord at hj; omega),
          atBit_decomp m _ _ (by unfold bit_in_word BitsPerWord at hj; omega)] at this
        exact this hb

theorem intersects_iff (m o : BitMap) (hm : WF m) :
    m.intersects o = true ↔ ∃ i, i < m.size ∧ m.atBit i = true ∧ o.atBit i = true := by
  unfold BitMap.intersects
  rw [Bool.or_eq_true, List.any_eq_true, Bool.and_eq_true]
  have hr64 : bit_in_word m.size ≤ 64 := by unfold bit_in_word BitsPerWord; omega
  constructor
  · rintro (⟨x, hx, hword⟩ | ⟨hr, ht⟩)
    · rw [List.mem_range] at hx
      rw [bne_iff_ne, word_inter_iff _ _ (hm.getWord_lt _)] at hword
      rcases hword with ⟨j, hj64, h1, h2⟩
      refine ⟨x * 64 + j, ?_, ?_, ?_⟩
      · unfold word_index BitsPerWord at hx
        omega
      · rw [atBit_decomp m _ _ hj64]; exact h1
      · rw [atBit_decomp o _ _ hj64]; exact h2
    · rw [bne_iff_ne, tail_inter_iff _ _ _ hr64] at ht
      rcases ht with ⟨j, hjr, h1, h2⟩
      have hj64 : j < 64 := by
        unfold bit_in_word BitsPerWord at hjr
        omega
      refine ⟨word_index m.size * 64 + j, ?_, ?_, ?_⟩
      · unfold word_index bit_in_word BitsPerWord at *
        omega
      · rw [atBit_decomp m _ _ hj64]; exact h1
      · rw [atBit_decomp o _ _ hj64]; exact h2
  · rintro ⟨i, hi, h1, h2⟩
    have hj64 : i % 64 < 64 := Nat.mod_lt _ (by decide)
    have hidecomp : i = i / 64 * 64 + i % 64 := by omega
    rw [hidecomp, atBit_decomp m _ _ hj64] at h1
    rw [hidecomp, atBit_decomp o _ _ hj64] at h2
    rcases Nat.lt_or_ge (i / 64) (word_index m.size) with hw | hw
    · refine Or.inl ⟨i / 64, List.mem_range.mpr hw, ?_⟩
      rw [bne_iff_ne, word_inter_iff _ _ (hm.getWord_lt _)]
      exact ⟨i % 64, hj64, h1, h2⟩
    · have hweq : i / 64 = word_index m.size ∧ i % 64 < bit_in_word m.size := by
        unfold word_index bit_in_word BitsPerWord at *
        omega
      refine Or.inr ⟨?_, ?_⟩
      · simp only [gt_iff_lt, decide_eq_true_eq]
        omega
      · rw [bne_iff_ne, tail_inter_iff _ _ _ hr64]
        rw [hweq.1] at h1 h2
        exact ⟨i % 64, hweq.2, h1, h2⟩

theorem is_full_iff (m : BitMap) (hm : WF m) :
    m.is_full = true ↔ ∀ i, i < m.size → m.atBit i = true := by
  unfold BitMap.is_full
  rw [Bool.and_eq_true, List.all_eq_true, Bool.or_eq_true, beq_iff_eq, beq_iff_eq]
  have hr64 : bit_in_word m.size ≤ 64 := by unfold bit_in_word BitsPerWord; omega
  constructor
  · rintro ⟨hA, hB⟩ i hi
    have hj64 : i % 64 < 64 := Nat.mod_lt _ (by decide)
    have hidecomp : i = i / 64 * 64 + i % 64 := by omega
    rcases Nat.lt_or_ge (i / 64) (word_index m.size) with hw | hw
    · have hx := hA (i / 64) (List.mem_range.mpr hw)
      rw [beq_iff_eq, word_full_iff _ (hm.getWord_lt _)] at hx
      rw [hidecomp, atBit_decomp m _ _ hj64]
      exact hx (i % 64) hj64
    · have hweq : i / 64 = word_index m.size ∧ i % 64 < bit_in_word m.size := by
        unfold word_index bit_in_word BitsPerWord at *
        omega
      rcases hB with h0 | ht
      · exfalso
        unfold bit_in_word BitsPerWord at *
        omega
      · rw [tail_full_iff _ _ hr64] at ht
        rw [hidecomp, atBit_decomp m _ _ hj64, hweq.1]
        exact ht (i % 64) hweq.2
  · intro h
    constructor
    · intro x hx
      rw [List.mem_range] at hx
      rw [beq_iff_eq, word_full_iff _ (hm.getWord_lt _)]
      intro j hj
      have hlt : x * 64 + j < m.size := by
        unfold word_index BitsPerWord at hx
        omega
      have := h (x * 64 + j) hlt
      rwa [atBit_decomp m _ _ hj] at this
    · by_cases h0 : bit_in_word m.size = 0
      · exact Or.inl h0
      · refine Or.inr ?_
        rw [tail_full_iff _ _ hr64]
        intro j hj
        have hj64 : j < 64 := by
          unfold bit_in_word BitsPerWord at hj
          omega
        have hlt : word_index m.size * 64 + j < m.size := by
          unfold word_index bit_in_word BitsPerWord at *
          omega
        have := h (word_index m.size * 64 + j) hlt
        rwa [atBit_decomp m _ _ hj64] at this

/-! The complement-below-size construction. -/

theorem length_complement (m : BitMap) :
    (complementBelowSize m).map.length = m.map.length := by
  unfold complementBelowSize
  simp

theorem size_complement (m : BitMap) : (complementBelowSize m).size = m.size := rfl

theorem getWord_complement (m : BitMap) (k : Nat) :
    (complementBelowSize m).getWord k =
      if k < m.map.length then
        (if k < word_index m.size then wnot (m.getWord k)
          else tail_of_map (wnot (m.getWord k)) (bit_in_word m.size))
      else 0 := by
  unfold complementBelowSize BitMap.getWord
  rw [List.getD_eq_getElem?_getD, List.getElem?_map]
  by_cases hk : k < m.map.length
  · rw [List.getElem?_range (by simpa using hk)]
    simp only [Option.map_some', Option.getD_some, if_pos hk]
  · rw [List.getElem?_eq_none (by simpa using Nat.le_of_not_lt hk)]
    simp [hk]

theorem WF_complement (m : BitMap) (hm : WF m) : WF (complementBelowSize m) := by
  constructor
  · rw [length_complement, size_complement]
    exact hm.1
  · intro w hw
    unfold complementBelowSize at hw
    simp only [List.mem_map, List.mem_range] at hw
    rcases hw with ⟨i, hi, rfl⟩
    have hbound : m.map.getD i 0 < wordModulus := hm.getWord_lt i
    by_cases hc : i < word_index m.size
    · simp only [hc, if_true]
      exact wnot_lt_wordModulus _ hbound
    · simp only [hc, if_false]
      unfold tail_of_map
      exact Nat.and_lt_two_pow _
        (tail_mask_lt _ (by unfold bit_in_word BitsPerWord; omega))

theorem atBit_complement (m : BitMap) (hm : WF m) (q : Nat) :
    (complementBelowSize m).atBit q =
      if q < m.size then !m.atBit q else false := by
  unfold BitMap.atBit
  rw [show (complementBelowSize m).getWord (word_index q) =
      (complementBelowSize m).getWord (word_index q) from rfl, getWord_complement]
  have hj64 : bit_in_word q < 64 := Nat.mod_lt _ (by decide)
  have hsle := hm.size_le_storage
  have hlen : m.map.length = (m.size + 63) / 64 := by
    have h1 := hm.1
    unfold calc_size_in_words BitsPerWord at h1
    exact h1
  by_cases hk : word_index q < m.map.length
  · rw [if_pos hk]
    by_cases hw : word_index q < word_index m.size
    · rw [if_pos hw, testBit_wnot_lt _ _ hj64]
      rw [if_pos (by unfold word_index bit_in_word BitsPerWord at *; omega)]
    · rw [if_neg hw]
      unfold tail_of_map
      rw [Nat.testBit_land, testBit_wnot_lt _ _ hj64, testBit_tail_mask]
      by_cases hq : q < m.size
      · rw [if_pos hq]
        have : bit_in_word q < bit_in_word m.size := by
          unfold word_index bit_in_word BitsPerWord at *
          omega
        simp [this]
      · rw [if_neg hq]
        have : ¬(bit_in_word q < bit_in_word m.size) := by
          unfold word_index bit_in_word BitsPerWord at *
          omega
        simp [this]
  · rw [if_neg hk, Nat.zero_testBit]
    rw [if_neg (by unfold word_index BitsPerWord at *; omega)]

/-- Claim C3, counterexample: with equal-size bitmaps A = a single set bit
and B = empty (size 1), A.contains(B) is true yet A.intersects(complement
of B below size) is also true, refuting the claimed equivalence. -/
theorem C3_counterexample :
    ¬(((⟨[1], 1⟩ : BitMap).contains ⟨[0], 1⟩ = true) ↔
      ((⟨[1], 1⟩ : BitMap).intersects (complementBelowSize ⟨[0], 1⟩) = false)) := by
  decide

/-- Claim C3 (amended): for equal-size well-formed bitmaps,
A.contains(B) is true iff (complement of A over bit positions below
size).intersects(B) is false: the complement must be taken of the receiver
A, not of the argument B. -/
theorem C3_contains_iff_not_intersects (m o : BitMap) (hm : WF m) (ho : WF o)
    (hsz : o.size = m.size) :
    (m.contains o = true ↔ (complementBelowSize m).intersects o = false) := by
  rw [contains_iff m o hm ho]
  rw [show ((complementBelowSize m).intersects o = false) ↔
      ¬((complementBelowSize m).intersects o = true) by simp]
  rw [intersects_iff _ o (WF_complement m hm)]
  rw [size_complement]
  constructor
  · intro h hx
    rcases hx with ⟨i, hi, h1, h2⟩
    rw [atBit_complement m hm, if_pos hi] at h1
    have := h i hi h2
    rw [this] at h1
    simp at h1
  · intro h i hi hb
    by_contra hc
    have hfalse : m.atBit i = false := by
      cases hx : m.atBit i
      · rfl
      · exact absurd hx hc
    exact h ⟨i, hi, by rw [atBit_complement m hm, if_pos hi, hfalse]; rfl, hb⟩

/-- Witness for claim C3's theorem at a concrete input. -/
theorem C3_contains_iff_not_intersects_witness :
    WF (⟨[7], 3⟩ : BitMap) ∧ WF (⟨[5], 3⟩ : BitMap) ∧
      (⟨[5], 3⟩ : BitMap).size = (⟨[7], 3⟩ : BitMap).size ∧
      ((⟨[7], 3⟩ : BitMap).contains ⟨[5], 3⟩ = true ↔
        (complementBelowSize ⟨[7], 3⟩).intersects ⟨[5], 3⟩ = false) :=
  ⟨by decide, by decide, by decide,
    C3_contains_iff_not_intersects ⟨[7], 3⟩ ⟨[5], 3⟩ (by decide) (by decide) (by decide)⟩

/-! Resize. -/

theorem getD_range_map (f : Nat → Nat) (n k : Nat) :
    ((List.range n).map f).getD k 0 = if k < n then f k else 0 := by
  rw [List.getD_eq_getElem?_getD, List.getElem?_map]
  by_cases hk : k < n
  · rw [List.getElem?_range (by simpa using hk)]
    simp [hk]
  · rw [List.getElem?_eq_none (by simpa using Nat.le_of_not_lt hk)]
    simp [hk]

theorem getWord_resize_clear (m : BitMap) (N : Nat) (junk : List Nat) (k : Nat) :
    (m.resize N true junk).getWord k =
      if k < calc_size_in_words N then
        (if k < calc_size_in_words m.size then m.getWord k else 0)
      else 0 := by
  unfold BitMap.resize reallocate BitMap.getWord
  by_cases hpos : calc_size_in_words N > 0
  · simp only [hpos, if_true]
    by_cases hgrow : calc_size_in_words N > calc_size_in_words m.size
    · rw [if_pos (by simp [hgrow])]
      rw [getD_range_map]
      by_cases hk : k < calc_size_in_words N
      · simp only [hk, if_true]
        by_cases hle : calc_size_in_words m.size ≤ k
        · simp [hle, Nat.not_lt.mpr hle]
        · simp only [hle, if_false]
          rw [getD_range_map]
          simp only [hk, if_true]
          rw [if_pos (by omega)]
          rw [if_pos (by omega)]
      · simp [hk]
    · rw [if_neg (by simp [hgrow])]
      rw [getD_range_map]
      by_cases hk : k < calc_size_in_words N
      · simp only [hk, if_true]
        rw [if_pos (by omega)]
        rw [if_pos (by omega)]
      · simp [hk]
  · have h0 : calc_size_in_words N = 0 := by omega
    simp only [hpos, if_false]
    rw [h0]
    simp [List.getD]

theorem size_resize (m : BitMap) (N : Nat) (c : Bool) (junk : List Nat) :
    (m.resize N c junk).size = N := rfl

theorem length_resize_clear (m : BitMap) (N : Nat) (junk : List Nat) :
    (m.resize N true junk).map.length = calc_size_in_words N := by
  unfold BitMap.resize reallocate
  by_cases hpos : calc_size_in_words N > 0
  · simp only [hpos, if_true]
    split <;> simp
  · simp only [hpos, if_false]
    simp
    omega

/-- Claim C6, counterexample: starting from a cleared 4-bit bitmap, set
all bits, shrink to size 3 with clear requested, then grow to size 10 with
clear requested: bit 3 lies in [old size, new size) = [3, 10) yet reads 1
afterwards, because the growth stayed within the same storage word and the
zero-fill only covers whole grown words. -/
theorem C6_counterexample :
    ((((BitMap.allocate 4 true []).set_range 0 4).resize 3 true []).resize 10 true []).atBit 3 =
        true ∧
      (((BitMap.allocate 4 true []).set_range 0 4).resize 3 true []).size = 3 ∧
      ((((BitMap.allocate 4 true []).set_range 0 4).resize 3 true []).resize 10 true []).size =
        10 := by
  refine ⟨by decide, by decide, by decide⟩

/-- Claim C6 (amended): resize(N, clear) with clear requested allocates
ceil(N/64) words, copies exactly min(ceil(S/64), ceil(N/64)) whole words
so every bit below min(S, N) is preserved, and zero-fills the words grown
beyond the old word count; consequently every bit of [S, N) reads 0
provided the old bitmap's tail bits were clear — bits of [S, N) lying
inside the old last partial word otherwise retain their stale values.
Freeing the old storage has no observable value semantics in this model. -/
theorem C6_resize_clear (m : BitMap) (N : Nat) (junk : List Nat) :
    (m.resize N true junk).size = N ∧
      (m.resize N true junk).map.length = calc_size_in_words N ∧
      (∀ k, k < min (calc_size_in_words m.size) (calc_size_in_words N) →
        (m.resize N true junk).getWord k = m.getWord k) ∧
      (∀ k, calc_size_in_words m.size ≤ k → k < calc_size_in_words N →
        (m.resize N true junk).getWord k = 0) ∧
      (∀ i, i < min m.size N → (m.resize N true junk).atBit i = m.atBit i) ∧
      (tailClear m → ∀ i, m.size ≤ i → i < N →
        (m.resize N true junk).atBit i = false) := by
  refine ⟨size_resize m N true junk, length_resize_clear m N junk, ?_, ?_, ?_, ?_⟩
  · intro k hk
    rw [getWord_resize_clear, if_pos (by omega), if_pos (by omega)]
  · intro k h1 h2
    rw [getWord_resize_clear, if_pos h2, if_neg (by omega)]
  · intro i hi
    unfold BitMap.atBit
    rw [getWord_resize_clear]
    rw [if_pos (by unfold word_index calc_size_in_words BitsPerWord at *; omega)]
    rw [if_pos (by unfold word_index calc_size_in_words BitsPerWord at *; omega)]
  · intro ht i h1 h2
    unfold BitMap.atBit
    rw [getWord_resize_clear]
    by_cases hk : word_index i < calc_size_in_words N
    · rw [if_pos hk]
      by_cases hold : word_index i < calc_size_in_words m.size
      · rw [if_pos hold]
        exact ht i h1
      · rw [if_neg hold, Nat.zero_testBit]
    · exfalso
      unfold word_index calc_size_in_words BitsPerWord at *
      omega

theorem tailClear_iff_bounded (m : BitMap) :
    tailClear m ↔ ∀ i, i < m.map.length * 64 → m.size ≤ i → m.atBit i = false := by
  constructor
  · intro h i _ hs
    exact h i hs
  · intro h i hs
    rcases Nat.lt_or_ge i (m.map.length * 64) with hlt | hge
    · exact h i hlt hs
    · exact atBit_out_of_storage m i hge

/-- Witness for claim C6's theorem at a concrete input. -/
theorem C6_resize_clear_witness :
    tailClear (⟨[3], 2⟩ : BitMap) ∧
      (((⟨[3], 2⟩ : BitMap).resize 70 true [9, 9]).size = 70 ∧
        ((⟨[3], 2⟩ : BitMap).resize 70 true [9, 9]).map.length = calc_size_in_words 70 ∧
        (∀ k, k < min (calc_size_in_words (⟨[3], 2⟩ : BitMap).size) (calc_size_in_words 70) →
          ((⟨[3], 2⟩ : BitMap).resize 70 true [9, 9]).getWord k =
            (⟨[3], 2⟩ : BitMap).getWord k) ∧
        (∀ k, calc_size_in_words (⟨[3], 2⟩ : BitMap).size ≤ k → k < calc_size_in_words 70 →
          ((⟨[3], 2⟩ : BitMap).resize 70 true [9, 9]).getWord k = 0) ∧
        (∀ i, i < min (⟨[3], 2⟩ : BitMap).size 70 →
          ((⟨[3], 2⟩ : BitMap).resize 70 true [9, 9]).atBit i = (⟨[3], 2⟩ : BitMap).atBit i) ∧
        (tailClear (⟨[3], 2⟩ : BitMap) → ∀ i, (⟨[3], 2⟩ : BitMap).size ≤ i → i < 70 →
          ((⟨[3], 2⟩ : BitMap).resize 70 true [9, 9]).atBit i = false)) :=
  ⟨by rw [tailClear_iff_bounded]; decide, C6_resize_clear ⟨[3], 2⟩ 70 [9, 9]⟩

/-! The atomic compare-and-swap word update. -/

theorem casLoop_applies_latest (f : Nat → Nat) (gs : List (Nat → Nat)) :
    ∀ w, casLoop f gs w = f (gs.foldl (fun a g => g a) w) := by
  induction gs with
  | nil => intro w; rfl
  | cons g gs ih =>
    intro w
    rw [List.foldl_cons]
    exact ih (g w)

theorem testBit_parPutWordFn (beg e : Nat) (v : Bool) (w j : Nat) (hj : j < 64)
    (hbe : beg ≤ e) (hw : e ≤ (word_index beg + 1) * 64) :
    (parPutWordFn beg e v w).testBit j =
      if beg ≤ word_index beg * 64 + j ∧ word_index beg * 64 + j < e then v
      else w.testBit j := by
  unfold parPutWordFn
  by_cases hne : beg ≠ e
  · rw [if_pos hne]
    have hblt : beg < e := lt_of_le_of_ne hbe hne
    cases v
    · rw [if_neg (by simp)]
      rw [Nat.testBit_land, testBit_invMask_neg _ _ _ hj]
      by_cases hc : beg ≤ word_index beg * 64 + j ∧ word_index beg * 64 + j < e
      · rw [if_pos hc]
        have : (beg % 64 ≤ j ∧ (e % 64 = 0 ∨ j < e % 64)) := by
          unfold word_index BitsPerWord at *
          omega
        simp [this]
      · rw [if_neg hc]
        have : ¬(beg % 64 ≤ j ∧ (e % 64 = 0 ∨ j < e % 64)) := by
          unfold word_index BitsPerWord at *
          omega
        simp [this]
    · rw [if_pos (by simp)]
      rw [Nat.testBit_lor, testBit_wnot_invMask _ _ _ hj]
      by_cases hc : beg ≤ word_index beg * 64 + j ∧ word_index beg * 64 + j < e
      · rw [if_pos hc]
        have : (beg % 64 ≤ j ∧ (e % 64 = 0 ∨ j < e % 64)) := by
          unfold word_index BitsPerWord at *
          omega
        simp [this]
      · rw [if_neg hc]
        have : ¬(beg % 64 ≤ j ∧ (e % 64 = 0 ∨ j < e % 64)) := by
          unfold word_index BitsPerWord at *
          omega
        simp [this]
  · rw [if_neg hne]
    push_neg at hne
    subst hne
    rw [if_neg (by omega)]

/-- Claim C4: the word-level atomic writes of par_put_range_within_word
are compare-and-swap retry loops, so no concurrent update within a word is
ever lost.  First conjunct: the retry loop always installs its
transformation applied to the latest observed word value, whatever
sequence of interfering atomic writes won earlier cmpxchg races (a blind
store would instead discard them).  Remaining conjuncts: for two disjoint
bit ranges of the same storage word, in either order of the two threads'
successful compare-and-swaps, every bit of range one ends at value one,
every bit of range two ends at value two, and every other bit of the word
is preserved. -/
theorem C4_par_put_no_lost_update (W b1 e1 b2 e2 : Nat) (v1 v2 : Bool) (w0 : Nat)
    (hW1 : W * 64 ≤ b1) (h12 : b1 ≤ e1) (h23 : e1 ≤ b2) (h34 : b2 ≤ e2)
    (hW2 : e2 ≤ (W + 1) * 64) :
    (∀ (gs : List (Nat → Nat)) (w : Nat),
        casLoop (parPutWordFn b1 e1 v1) gs w =
          parPutWordFn b1 e1 v1 (gs.foldl (fun a g => g a) w)) ∧
      (∀ i, b1 ≤ i → i < e1 →
        (casLoop (parPutWordFn b1 e1 v1) [parPutWordFn b2 e2 v2] w0).testBit (i % 64) = v1 ∧
        (casLoop (parPutWordFn b2 e2 v2) [parPutWordFn b1 e1 v1] w0).testBit (i % 64) = v1) ∧
      (∀ i, b2 ≤ i → i < e2 →
        (casLoop (parPutWordFn b1 e1 v1) [parPutWordFn b2 e2 v2] w0).testBit (i % 64) = v2 ∧
        (casLoop (parPutWordFn b2 e2 v2) [parPutWordFn b1 e1 v1] w0).testBit (i % 64) = v2) ∧
      (∀ j, j < 64 → ¬(b1 ≤ W * 64 + j ∧ W * 64 + j < e1) →
        ¬(b2 ≤ W * 64 + j ∧ W * 64 + j < e2) →
        (casLoop (parPutWordFn b1 e1 v1) [parPutWordFn b2 e2 v2] w0).testBit j =
          w0.testBit j ∧
        (casLoop (parPutWordFn b2 e2 v2) [parPutWordFn b1 e1 v1] w0).testBit j =
          w0.testBit j) := by
  have hw1 : e1 ≤ (word_index b1 + 1) * 64 := by
    unfold word_index BitsPerWord
    omega
  have hw2 : e2 ≤ (word_index b2 + 1) * 64 := by
    unfold word_index BitsPerWord
    omega
  have hcas1 : ∀ w, casLoop (parPutWordFn b1 e1 v1) [parPutWordFn b2 e2 v2] w =
      parPutWordFn b1 e1 v1 (parPutWordFn b2 e2 v2 w) := fun w => rfl
  have hcas2 : ∀ w, casLoop (parPutWordFn b2 e2 v2) [parPutWordFn b1 e1 v1] w =
      parPutWordFn b2 e2 v2 (parPutWordFn b1 e1 v1 w) := fun w => rfl
  refine ⟨casLoop_applies_latest _, ?_, ?_, ?_⟩
  · intro i hi1 hi2
    have hj : i % 64 < 64 := Nat.mod_lt _ (by decide)
    constructor
    · rw [hcas1, testBit_parPutWordFn _ _ _ _ _ hj h12 hw1]
      rw [if_pos (by unfold word_index BitsPerWord at *; omega)]
    · rw [hcas2, testBit_parPutWordFn _ _ _ _ _ hj h34 hw2]
      rw [if_neg (by unfold word_index BitsPerWord at *; omega)]
      rw [testBit_parPutWordFn _ _ _ _ _ hj h12 hw1]
      rw [if_pos (by unfold word_index BitsPerWord at *; omega)]
  · intro i hi1 hi2
    have hj : i % 64 < 64 := Nat.mod_lt _ (by decide)
    constructor
    · rw [hcas1, testBit_parPutWordFn _ _ _ _ _ hj h12 hw1]
      rw [if_neg (by unfold word_index BitsPerWord at *; omega)]
      rw [testBit_parPutWordFn _ _ _ _ _ hj h34 hw2]
      rw [if_pos (by unfold word_index BitsPerWord at *; omega)]
    · rw [hcas2, testBit_parPutWordFn _ _ _ _ _ hj h34 hw2]
      rw [if_pos (by unfold word_index BitsPerWord at *; omega)]
  · intro j hj hn1 hn2
    constructor
    · rw [hcas1, testBit_parPutWordFn _ _ _ _ _ hj h12 hw1]
      rw [if_neg (by unfold word_index BitsPerWord at *; omega)]
      rw [testBit_parPutWordFn _ _ _ _ _ hj h34 hw2]
      rw [if_neg (by unfold word_index BitsPerWord at *; omega)]
    · rw [hcas2, testBit_parPutWordFn _ _ _ _ _ hj h34 hw2]
      rw [if_neg (by unfold word_index BitsPerWord at *; omega)]
      rw [testBit_parPutWordFn _ _ _ _ _ hj h12 hw1]
      rw [if_neg (by unfold word_index BitsPerWord at *; omega)]

/-- Witness for claim C4's theorem at a concrete input: ranges [1,3) and
[5,9) of word 0, set and clear respectively, starting word 0b111110. -/
theorem C4_par_put_no_lost_update_witness :
    0 * 64 ≤ 1 ∧ 1 ≤ 3 ∧ 3 ≤ 5 ∧ 5 ≤ 9 ∧ 9 ≤ (0 + 1) * 64 ∧
      (∀ i, 1 ≤ i → i < 3 →
        (casLoop (parPutWordFn 1 3 true) [parPutWordFn 5 9 false] 62).testBit (i % 64) = true ∧
        (casLoop (parPutWordFn 5 9 false) [parPutWordFn 1 3 true] 62).testBit (i % 64) = true) :=
  ⟨by decide, by decide, by decide, by decide, by decide,
    (C4_par_put_no_lost_update 0 1 3 5 9 true false 62 (by decide) (by decide) (by decide)
      (by decide) (by decide)).2.1⟩

/-! Collection-set mandatory pass. -/

theorem calcOldMandatoryAux_floor (minOld maxOld : Nat) (hmm : minOld ≤ maxOld) :
    ∀ (cs : List ℚ) (rem : ℚ) (cnt : Nat),
      min minOld (cnt + cs.length) ≤ calcOldMandatoryAux minOld maxOld cs rem cnt := by
  intro cs
  induction cs with
  | nil =>
    intro rem cnt
    unfold calcOldMandatoryAux
    simp
  | cons c cs ih =>
    intro rem cnt
    unfold calcOldMandatoryAux
    by_cases h1 : maxOld ≤ cnt
    · rw [if_pos h1]
      have : min minOld (cnt + (c :: cs).length) ≤ minOld := Nat.min_le_left _ _
      omega
    · rw [if_neg h1]
      by_cases h2 : cnt < minOld
      · rw [if_pos h2]
        have := ih (max (rem - c) 0) (cnt + 1)
        simp only [List.length_cons]
        omega
      · rw [if_neg h2]
        by_cases h3 : rem < c
        · rw [if_pos h3]
          have : min minOld (cnt + (c :: cs).length) ≤ minOld := Nat.min_le_left _ _
          omega
        · rw [if_neg h3]
          have := ih (rem - c) (cnt + 1)
          simp only [List.length_cons]
          omega

/-- Claim C9: the mandatory pass of the collection-set policy selects at
least the configured minimum number of old regions whenever that many
candidates exist, for every time budget — including budgets the mandatory
regions alone already exceed.  The selection is a total function returning
a count, so the overrun is not surfaced as an error. -/
theorem C9_mandatory_floor (costs : List ℚ) (budget : ℚ) (minOld maxOld : Nat)
    (hmm : minOld ≤ maxOld) (hlen : minOld ≤ costs.length) :
    minOld ≤ calcOldMandatory costs budget minOld maxOld := by
  unfold calcOldMandatory
  have := calcOldMandatoryAux_floor minOld maxOld hmm costs budget 0
  omega

/-- Witness for claim C9's theorem: the spec's own candidate costs
10ms, 8ms, 40ms with a zero remaining budget and a minimum of one region
still yield at least one selected region. -/
theorem C9_mandatory_floor_witness :
    1 ≤ 10 ∧ 1 ≤ ([(10 : ℚ), 8, 40]).length ∧
      1 ≤ calcOldMandatory [(10 : ℚ), 8, 40] 0 1 10 :=
  ⟨by decide, by decide, C9_mandatory_floor [(10 : ℚ), 8, 40] 0 1 10 (by decide) (by decide)⟩

/-! Public-operation reachability invariant. -/

theorem applyOp_preserves (m : BitMap) (op : PublicOp) (hm : WF m) (ht : tailClear m)
    (hv : ValidOp m op) :
    WF (applyOp m op) ∧ (applyOp m op).size = m.size ∧ tailClear (applyOp m op) := by
  cases op with
  | opSetBit i =>
    refine ⟨hm.set_bit i, rfl, ?_⟩
    show tailClear (m.set_bit i)
    intro q hq
    rw [size_set_bit] at hq
    rw [atBit_set_bit m i q (lt_of_lt_of_le hv hm.size_le_storage), ht q hq]
    have hlt : i < m.size := hv
    have : ¬(q = i) := by omega
    simp [this]
  | opClearBit i =>
    refine ⟨hm.clear_bit i, rfl, ?_⟩
    show tailClear (m.clear_bit i)
    intro q hq
    rw [size_clear_bit] at hq
    rw [atBit_clear_bit m i q (lt_of_lt_of_le hv hm.size_le_storage), ht q hq]
    simp
  | opAtPut i v =>
    cases v
    · refine ⟨hm.clear_bit i, rfl, ?_⟩
      show tailClear (m.clear_bit i)
      intro q hq
      rw [size_clear_bit] at hq
      rw [atBit_clear_bit m i q (lt_of_lt_of_le hv hm.size_le_storage), ht q hq]
      simp
    · refine ⟨hm.set_bit i, rfl, ?_⟩
      show tailClear (m.set_bit i)
      intro q hq
      rw [size_set_bit] at hq
      rw [atBit_set_bit m i q (lt_of_lt_of_le hv hm.size_le_storage), ht q hq]
      have hlt : i < m.size := hv
      have : ¬(q = i) := by omega
      simp [this]
  | opSetRange b e =>
    refine ⟨hm.set_range b e, size_set_range m b e, ?_⟩
    show tailClear (m.set_range b e)
    intro q hq
    rw [size_set_range] at hq
    rw [atBit_set_range m b e q hv.1 (le_trans hv.2 hm.size_le_storage), ht q hq]
    have hve : e ≤ m.size := hv.2
    have : ¬(b ≤ q ∧ q < e) := by omega
    simp [this]
  | opClearRange b e =>
    refine ⟨hm.clear_range b e, size_clear_range m b e, ?_⟩
    show tailClear (m.clear_range b e)
    intro q hq
    rw [size_clear_range] at hq
    rw [atBit_clear_range m b e q hv.1 (le_trans hv.2 hm.size_le_storage), ht q hq]
    simp
  | opSetLargeRange b e =>
    have heq : applyOp m (.opSetLargeRange b e) = m.set_range b e := set_large_range_eq m b e
    rw [heq]
    refine ⟨hm.set_range b e, size_set_range m b e, ?_⟩
    show tailClear (m.set_range b e)
    intro q hq
    rw [size_set_range] at hq
    rw [atBit_set_range m b e q hv.1 (le_trans hv.2 hm.size_le_storage), ht q hq]
    have hve : e ≤ m.size := hv.2
    have : ¬(b ≤ q ∧ q < e) := by omega
    simp [this]
  | opClearLargeRange b e =>
    have heq : applyOp m (.opClearLargeRange b e) = m.clear_range b e :=
      clear_large_range_eq m b e
    rw [heq]
    refine ⟨hm.clear_range b e, size_clear_range m b e, ?_⟩
    show tailClear (m.clear_range b e)
    intro q hq
    rw [size_clear_range] at hq
    rw [atBit_clear_range m b e q hv.1 (le_trans hv.2 hm.size_le_storage), ht q hq]
    simp
  | opAtPutRange b e v =>
    cases v
    · refine ⟨hm.clear_range b e, size_clear_range m b e, ?_⟩
      show tailClear (m.clear_range b e)
      intro q hq
      rw [size_clear_range] at hq
      rw [atBit_clear_range m b e q hv.1 (le_trans hv.2 hm.size_le_storage), ht q hq]
      simp
    · refine ⟨hm.set_range b e, size_set_range m b e, ?_⟩
      show tailClear (m.set_range b e)
      intro q hq
      rw [size_set_range] at hq
      rw [atBit_set_range m b e q hv.1 (le_trans hv.2 hm.size_le_storage), ht q hq]
      have hve : e ≤ m.size := hv.2
      have : ¬(b ≤ q ∧ q < e) := by omega
      simp [this]
  | opAtPutLargeRange b e v =>
    cases v
    · have heq : applyOp m (.opAtPutLargeRange b e false) = m.clear_large_range b e := rfl
      rw [heq, clear_large_range_eq]
      refine ⟨hm.clear_range b e, size_clear_range m b e, ?_⟩
      intro q hq
      rw [size_clear_range] at hq
      rw [atBit_clear_range m b e q hv.1 (le_trans hv.2 hm.size_le_storage), ht q hq]
      simp
    · have heq : applyOp m (.opAtPutLargeRange b e true) = m.set_large_range b e := rfl
      rw [heq, set_large_range_eq]
      refine ⟨hm.set_range b e, size_set_range m b e, ?_⟩
      intro q hq
      rw [size_set_range] at hq
      rw [atBit_set_range m b e q hv.1 (le_trans hv.2 hm.size_le_storage), ht q hq]
      have hve : e ≤ m.size := hv.2
      have : ¬(b ≤ q ∧ q < e) := by omega
      simp [this]
  | opSetUnion o =>
    refine ⟨hm.set_union o hv.2, size_set_union m o, ?_⟩
    show tailClear (m.set_union o)
    intro q hq
    rw [size_set_union] at hq
    rw [atBit_set_union m o hm q, if_neg (by omega), ht q hq]
  | opSetDifference o =>
    refine ⟨hm.set_difference o, size_set_difference m o, ?_⟩
    show tailClear (m.set_difference o)
    intro q hq
    rw [size_set_difference] at hq
    rw [atBit_set_difference m o hm q, if_neg (by omega), ht q hq]
  | opSetIntersection o =>
    refine ⟨hm.set_intersection o, size_set_intersection m o, ?_⟩
    show tailClear (m.set_intersection o)
    intro q hq
    rw [size_set_intersection] at hq
    rw [atBit_set_intersection m o hm q, if_neg (by omega), ht q hq]
  | opSetFrom o =>
    refine ⟨hm.set_from o hv.2, size_set_from m o, ?_⟩
    show tailClear (m.set_from o)
    intro q hq
    rw [size_set_from] at hq
    rw [atBit_set_from m o hm q, if_neg (by omega), ht q hq]
  | opClearLarge =>
    have heq : applyOp m .opClearLarge = m.clear_range_of_words 0 m.size_in_words :=
      clear_large_range_of_words_eq m 0 m.size_in_words
    rw [heq]
    refine ⟨hm.clear_range_of_words 0 m.size_in_words,
      size_clear_range_of_words m 0 m.size_in_words, ?_⟩
    intro q hq
    rw [size_clear_range_of_words] at hq
    rw [atBit_clear_range_of_words m 0 m.size_in_words (le_of_eq hm.1.symm) q, ht q hq]
    simp

theorem applyOps_preserves (ops : List PublicOp) :
    ∀ m : BitMap, WF m → tailClear m → ValidOps m ops →
      WF (applyOps m ops) ∧ (applyOps m ops).size = m.size ∧ tailClear (applyOps m ops) := by
  induction ops with
  | nil =>
    intro m hm ht _
    exact ⟨hm, rfl, ht⟩
  | cons op ops ih =>
    intro m hm ht hv
    have hstep := applyOp_preserves m op hm ht hv.1
    have hrest := ih (applyOp m op) hstep.1 hstep.2.2 hv.2
    exact ⟨hrest.1, hrest.2.1.trans hstep.2.1, hrest.2.2⟩

theorem count_one_bits_of_tailClear (m : BitMap) (hm : WF m) (ht : tailClear m) :
    m.count_one_bits = ((Finset.range m.size).filter (fun i => m.atBit i = true)).card := by
  rw [count_one_bits_eq_sum m hm, Finset.card_filter]
  refine (Finset.sum_subset ?_ ?_).symm
  · intro q hq
    rw [Finset.mem_range] at *
    have := hm.size_le_storage
    omega
  · intro q _ hq
    rw [Finset.mem_range] at hq
    rw [ht q (by omega)]
    simp

theorem is_full_eq_decide (m : BitMap) (hm : WF m) :
    m.is_full = decide (∀ i, i < m.size → m.atBit i = true) := by
  rw [Bool.eq_iff_iff, decide_eq_true_eq]
  exact is_full_iff m hm

/-- Claim C1, counterexample: the public API can leave a set bit at a
position at or beyond size, and count_one_bits is then affected by it.
Allocate 3 bits cleared, set_range(0,3), then resize to 2 bits with clear
requested: the reached state is word 7 with size 2, whose bit 2 lies at a
position ≥ size yet is set; count_one_bits returns 3 although only 2 bits
below size are set, while the same valid bits with a clear tail (word 3)
count as 2.  is_full, by contrast, masks the tail. -/
theorem C1_counterexample :
    ((BitMap.allocate 3 true []).set_range 0 3).resize 2 true [] = (⟨[7], 2⟩ : BitMap) ∧
      (⟨[7], 2⟩ : BitMap).atBit 2 = true ∧ (⟨[7], 2⟩ : BitMap).size ≤ 2 ∧
      (⟨[7], 2⟩ : BitMap).count_one_bits = 3 ∧
      ((Finset.range 2).filter (fun i => (⟨[7], 2⟩ : BitMap).atBit i = true)).card = 2 ∧
      (⟨[3], 2⟩ : BitMap).count_one_bits = 2 ∧
      (∀ i, i < 2 → (⟨[7], 2⟩ : BitMap).atBit i = (⟨[3], 2⟩ : BitMap).atBit i) := by
  have h7 : num_set_bits 7 = 3 := by
    rw [num_set_bits_eq_sum 3 7 (by norm_num)]
    decide
  have h3 : num_set_bits 3 = 2 := by
    rw [num_set_bits_eq_sum 2 3 (by norm_num)]
    decide
  have hc7 : (⟨[7], 2⟩ : BitMap).count_one_bits = 0 + countWordBytes 7 8 := rfl
  have hc3 : (⟨[3], 2⟩ : BitMap).count_one_bits = 0 + countWordBytes 3 8 := rfl
  refine ⟨by decide, by decide, by decide, ?_, by decide, ?_, by decide⟩
  · rw [hc7, countWordBytes_eq 8 7 (by norm_num), h7]
  · rw [hc3, countWordBytes_eq 8 3 (by norm_num), h3]

/-- Claim C1 (amended): excluding resize, the sequential public mutating
operations (single-bit writes, the range writes and their large variants,
the at_put variants, the set-algebra operations and set_from), started
from any well-formed bitmap whose tail bits are clear (such as a cleared
allocation), can never set a bit at a position at or beyond size; on every
such reachable state is_full decides exactly whether all bits below size
are set, and count_one_bits equals the number of set bits below size.
With resize included the original claim fails: a shrinking resize leaves
previously valid set bits beyond the new size and count_one_bits, which
sums raw storage words without tail masking, counts them. -/
theorem C1_no_tail_escape (m : BitMap) (ops : List PublicOp) (hm : WF m)
    (ht : tailClear m) (hv : ValidOps m ops) :
    (∀ i, (applyOps m ops).size ≤ i → (applyOps m ops).atBit i = false) ∧
      ((applyOps m ops).is_full =
        decide (∀ i, i < (applyOps m ops).size → (applyOps m ops).atBit i = true)) ∧
      ((applyOps m ops).count_one_bits =
        ((Finset.range (applyOps m ops).size).filter
          (fun i => (applyOps m ops).atBit i = true)).card) := by
  have h := applyOps_preserves ops m hm ht hv
  exact ⟨h.2.2, is_full_eq_decide _ h.1, count_one_bits_of_tailClear _ h.1 h.2.2⟩

/-- Witness for claim C1's theorem: a cleared 3-bit bitmap and the
operation sequence set_range(0,2). -/
theorem C1_no_tail_escape_witness :
    WF (⟨[0], 3⟩ : BitMap) ∧ tailClear (⟨[0], 3⟩ : BitMap) ∧
      ValidOps (⟨[0], 3⟩ : BitMap) [PublicOp.opSetRange 0 2] ∧
      ((∀ i, (applyOps (⟨[0], 3⟩ : BitMap) [PublicOp.opSetRange 0 2]).size ≤ i →
          (applyOps (⟨[0], 3⟩ : BitMap) [PublicOp.opSetRange 0 2]).atBit i = false) ∧
        ((applyOps (⟨[0], 3⟩ : BitMap) [PublicOp.opSetRange 0 2]).is_full =
          decide (∀ i, i < (applyOps (⟨[0], 3⟩ : BitMap) [PublicOp.opSetRange 0 2]).size →
            (applyOps (⟨[0], 3⟩ : BitMap) [PublicOp.opSetRange 0 2]).atBit i = true)) ∧
        ((applyOps (⟨[0], 3⟩ : BitMap) [PublicOp.opSetRange 0 2]).count_one_bits =
          ((Finset.range (applyOps (⟨[0], 3⟩ : BitMap) [PublicOp.opSetRange 0 2]).size).filter
            (fun i => (applyOps (⟨[0], 3⟩ : BitMap) [PublicOp.opSetRange 0 2]).atBit i =
              true)).card)) :=
  ⟨by decide, by rw [tailClear_iff_bounded]; decide, ⟨⟨Nat.zero_le 2, by decide⟩, trivial⟩,
    C1_no_tail_escape ⟨[0], 3⟩ [PublicOp.opSetRange 0 2] (by decide)
      (by rw [tailClear_iff_bounded]; decide) ⟨⟨Nat.zero_le 2, by decide⟩, trivial⟩⟩

theorem stopAt_cons (p : Nat → Bool) (x : Nat) (xs : List Nat) :
    stopAt p (x :: xs) = if p x = true then x :: stopAt p xs else [x] := rfl

theorem stopAt_of_all_true (p : Nat → Bool) (l : List Nat) (h : l.all p = true) :
    stopAt p l = l := by
  induction l with
  | nil => rfl
  | cons x xs ih =>
    rw [List.all_cons, Bool.and_eq_true] at h
    rw [stopAt_cons, if_pos h.1, ih h.2]

theorem stopAt_append (p : Nat → Bool) (l1 l2 : List Nat) :
    stopAt p (l1 ++ l2) =
      if l1.all p = true then l1 ++ stopAt p l2 else stopAt p l1 := by
  induction l1 with
  | nil => simp
  | cons x xs ih =>
    rw [List.cons_append]
    by_cases hx : p x = true
    · rw [stopAt_cons, if_pos hx, ih]
      by_cases hall : xs.all p = true
      · rw [if_pos hall, if_pos (show (x :: xs).all p = true by simp [hx, hall])]
        simp
      · rw [if_neg hall, if_neg (show ¬(x :: xs).all p = true by simp [hx, hall])]
        rw [stopAt_cons, if_pos hx]
    · rw [stopAt_cons, if_neg hx, if_neg (show ¬(x :: xs).all p = true by simp [hx])]
      rw [stopAt_cons, if_neg hx]

theorem setBitsIn_empty (m : BitMap) (l x : Nat) (h : x ≤ l) : setBitsIn m l x = [] := by
  unfold setBitsIn
  rw [show x - l = 0 by omega]
  rfl

theorem setBitsIn_cons (m : BitMap) (l x : Nat) (h : l < x) :
    setBitsIn m l x =
      if m.atBit l = true then l :: setBitsIn m (l + 1) x else setBitsIn m (l + 1) x := by
  unfold setBitsIn
  rw [show x - l = (x - (l + 1)) + 1 by omega, List.range'_succ, List.filter_cons]

theorem setBitsIn_none (m : BitMap) (l x : Nat)
    (h : ∀ i, l ≤ i → i < x → m.atBit i = false) : setBitsIn m l x = [] := by
  generalize hn : x - l = n
  induction n generalizing l with
  | zero => exact setBitsIn_empty m l x (by omega)
  | succ k ih =>
    rw [setBitsIn_cons m l x (by omega)]
    rw [h l (le_refl l) (by omega)]
    simp only [Bool.false_eq_true, if_false]
    exact ih (l + 1) (fun i h1 h2 => h i (by omega) h2) (by omega)

theorem setBitsIn_split (m : BitMap) (l mid x : Nat) (h1 : l ≤ mid) (h2 : mid ≤ x) :
    setBitsIn m l x = setBitsIn m l mid ++ setBitsIn m mid x := by
  unfold setBitsIn
  rw [← List.filter_append]
  congr 1
  have hx := List.range'_append l (mid - l) (x - mid) 1
  rw [show l + 1 * (mid - l) = mid by omega] at hx
  rw [show (x - mid) + (mid - l) = x - l by omega] at hx
  exact hx.symm

example (blk : Nat → BitMap → Bool × BitMap) (i r : Nat) (m : BitMap) (off rest : Nat) :
    iterInner blk i r 0 m off rest = (true, m, []) := rfl

example (blk : Nat → BitMap → Bool × BitMap) (i r k : Nat) (m : BitMap) (off rest : Nat)
    (hc : ¬(off < r ∧ rest ≠ 0)) :
    iterInner blk i r (k + 1) m off rest = (true, m, []) := by
  rw [iterInner]
  rw [if_neg hc]

theorem shiftRight_zero_bits (w d : Nat) (h : w >>> d = 0) :
    ∀ j, d ≤ j → w.testBit j = false := by
  intro j hj
  have : (w >>> d).testBit (j - d) = w.testBit j := by
    rw [Nat.testBit_shiftRight, show d + (j - d) = j by omega]
  rw [← this, h, Nat.zero_testBit]

theorem iterInner_pure (p : Nat → Bool) (m : BitMap) (index r : Nat) :
    ∀ (fuel offset : Nat),
      index * 64 ≤ offset →
      fuel = (index + 1) * 64 - offset →
      iterInner (pureBlk p) index r fuel m offset
          (m.getWord index >>> (offset - index * 64)) =
        ((setBitsIn m offset (min r ((index + 1) * 64))).all p, m,
          stopAt p (setBitsIn m offset (min r ((index + 1) * 64)))) := by
  intro fuel
  induction fuel with
  | zero =>
    intro offset hoff hfuel
    rw [setBitsIn_empty m offset _ (by omega)]
    rfl
  | succ k ih =>
    intro offset hoff hfuel
    have hoffw : offset < (index + 1) * 64 := by omega
    have hmod : offset % 64 = offset - index * 64 := by omega
    have hbit : m.atBit offset = (m.getWord index >>> (offset - index * 64)).testBit 0 := by
      rw [Nat.testBit_shiftRight]
      unfold BitMap.atBit word_index bit_in_word BitsPerWord
      rw [show offset / 64 = index by omega, show (offset - index * 64) + 0 = offset % 64 by omega]
    by_cases hcond : offset < r ∧ m.getWord index >>> (offset - index * 64) ≠ 0
    · rw [iterInner, if_pos hcond]
      have hcons : offset < min r ((index + 1) * 64) := by omega
      by_cases hpar : m.getWord index >>> (offset - index * 64) % 2 = 1
      · rw [if_pos hpar]
        have hba : m.atBit offset = true := by
          rw [hbit, Nat.testBit_zero]
          simp [hpar]
        simp only [pureBlk]
        have hshift : m.getWord index >>> (offset % BitsPerWord) >>> 1 =
            m.getWord index >>> (offset + 1 - index * 64) := by
          unfold BitsPerWord
          rw [hmod, ← Nat.shiftRight_add]
          congr 1
          omega
        by_cases hp : p offset = true
        · rw [if_pos hp, hshift, ih (offset + 1) (by omega) (by omega)]
          rw [setBitsIn_cons m offset _ hcons, if_pos hba]
          rw [List.all_cons, hp, Bool.true_and, stopAt_cons, if_pos hp]
        · rw [if_neg hp]
          rw [setBitsIn_cons m offset _ hcons, if_pos hba]
          rw [List.all_cons, stopAt_cons, if_neg hp]
          simp [hp]
      · rw [if_neg hpar]
        have hba : m.atBit offset = false := by
          rw [hbit, Nat.testBit_zero]
          simp [hpar]
        have hshift : m.getWord index >>> (offset - index * 64) >>> 1 =
            m.getWord index >>> (offset + 1 - index * 64) := by
          rw [← Nat.shiftRight_add]
          congr 1
          omega
        rw [hshift, ih (offset + 1) (by omega) (by omega)]
        rw [setBitsIn_cons m offset _ hcons, if_neg (by simp [hba])]
    · rw [iterInner, if_neg hcond]
      have hempty : setBitsIn m offset (min r ((index + 1) * 64)) = [] := by
        rcases Decidable.not_and_iff_or_not.mp hcond with hr | hz
        · exact setBitsIn_empty m offset _ (by omega)
        · push_neg at hz
          apply setBitsIn_none
          intro i h1 h2
          rcases Nat.lt_or_ge i ((index + 1) * 64) with hiw | hiw
          · have : m.atBit i = (m.getWord index).testBit (i - index * 64) := by
              unfold BitMap.atBit word_index bit_in_word BitsPerWord
              rw [show i / 64 = index by omega, show i % 64 = i - index * 64 by omega]
            rw [this]
            exact shiftRight_zero_bits _ _ hz (i - index * 64) (by omega)
          · omega
      rw [hempty]
      rfl

theorem iterOuter_pure (p : Nat → Bool) (m : BitMap) (r endIdx : Nat)
    (hend : ∀ i, endIdx * 64 ≤ i → i < r → m.atBit i = false) :
    ∀ (fuel index offset : Nat),
      fuel = endIdx - index →
      index * 64 ≤ offset →
      offset < (index + 1) * 64 →
      iterOuter (pureBlk p) r endIdx fuel m index offset =
        ((setBitsIn m offset r).all p, m, stopAt p (setBitsIn m offset r)) := by
  intro fuel
  induction fuel with
  | zero =>
    intro index offset hfuel hoff hoffw
    rw [setBitsIn_none m offset r (fun i h1 h2 => hend i (by omega) h2)]
    rfl
  | succ k ih =>
    intro index offset hfuel hoff hoffw
    have hidx : index < endIdx := by omega
    by_cases hcond : offset < r ∧ index < endIdx
    · rw [iterOuter, if_pos hcond]
      have hfuel2 : BitsPerWord - offset % BitsPerWord = (index + 1) * 64 - offset := by
        unfold BitsPerWord
        omega
      have hrest : m.getWord index >>> (offset % BitsPerWord) =
          m.getWord index >>> (offset - index * 64) := by
        unfold BitsPerWord
        rw [show offset % 64 = offset - index * 64 by omega]
      rw [hfuel2, hrest]
      dsimp only
      rw [iterInner_pure p m index r _ offset hoff rfl]
      dsimp only
      have hbi : bit_index (index + 1) = (index + 1) * 64 := rfl
      have hsplit : setBitsIn m offset r =
          setBitsIn m offset (min r ((index + 1) * 64)) ++
            setBitsIn m ((index + 1) * 64) r := by
        rcases Nat.le_total r ((index + 1) * 64) with hc | hc
        · rw [Nat.min_eq_left hc, setBitsIn_empty m ((index + 1) * 64) r (by omega), List.append_nil]
        · rw [Nat.min_eq_right hc]
          exact setBitsIn_split m offset ((index + 1) * 64) r (by omega) hc
      have hrec := ih (index + 1) (bit_index (index + 1)) (by omega)
        (by rw [hbi]) (by rw [hbi]; omega)
      by_cases hall : (setBitsIn m offset (min r ((index + 1) * 64))).all p = true
      · rw [if_pos hall, hrec]
        dsimp only
        rw [hsplit, List.all_append, stopAt_append, if_pos hall, hall, Bool.true_and]
        rw [stopAt_of_all_true p _ hall, hbi]
      · rw [if_neg hall, hsplit, List.all_append, stopAt_append, if_neg hall]
        have : (setBitsIn m offset (min r ((index + 1) * 64))).all p = false := by
          cases hx : (setBitsIn m offset (min r ((index + 1) * 64))).all p
          · rfl
          · exact absurd hx hall
        rw [this, Bool.false_and]
    · rw [iterOuter, if_neg hcond]
      have hr : r ≤ offset := by
        rcases Decidable.not_and_iff_or_not.mp hcond with h | h
        · omega
        · omega
      rw [setBitsIn_empty m offset r hr]
      rfl

/-- Claim C8: iterate(closure, left, right) visits exactly the set bit
positions of [left, right) in increasing order, stopping at the first
position where the closure answers false: the returned flag is false with
the visit trace ending at that position and no further bit visited, and
true when the traversal completes (first conjunct, for non-mutating
closures).  The containing word is re-read after every closure
invocation, so a closure that sets a bit ahead of the current position
during iteration sees its own edit and that bit is visited (second
conjunct: on the bitmap with only bit 2 set, a closure that sets bit 7 at
every call yields the trace [2, 7]). -/
theorem C8_iterate_spec (m : BitMap) (p : Nat → Bool) (l r : Nat) (hm : WF m)
    (hlr : l ≤ r) (hr : r ≤ m.size) :
    (m.iterate (pureBlk p) l r =
        ((setBitsIn m l r).all p, m, stopAt p (setBitsIn m l r))) ∧
      ((⟨[4], 10⟩ : BitMap).iterate (fun _ d => (true, d.set_bit 7)) 0 10 =
        (true, ⟨[132], 10⟩, [2, 7])) := by
  constructor
  · unfold BitMap.iterate
    dsimp only
    have hend : ∀ i, (min (word_index r + 1) m.size_in_words) * 64 ≤ i → i < r →
        m.atBit i = false := by
      intro i h1 h2
      rcases Nat.le_total (word_index r + 1) m.size_in_words with hc | hc
      · rw [Nat.min_eq_left hc] at h1
        exfalso
        unfold word_index BitsPerWord at h1
        omega
      · rw [Nat.min_eq_right hc] at h1
        apply atBit_out_of_storage
        have hlen := hm.1
        unfold BitMap.size_in_words at h1
        omega
    exact iterOuter_pure p m r (min (word_index r + 1) m.size_in_words) hend
      (min (word_index r + 1) m.size_in_words - word_index l) (word_index l) l rfl
      (by unfold word_index BitsPerWord; omega)
      (by unfold word_index BitsPerWord; omega)
  · decide

/-- Witness for claim C8's theorem at a concrete input: size-10 bitmap
with bits 2, 4, 5, 7 set, traversed over the full range with the
predicate of being below 5 - the traversal visits 2, 4 and stops at 5. -/
theorem C8_iterate_spec_witness :
    WF (⟨[180], 10⟩ : BitMap) ∧ 0 ≤ 10 ∧ 10 ≤ (⟨[180], 10⟩ : BitMap).size ∧
      ((⟨[180], 10⟩ : BitMap).iterate (pureBlk (fun o => o < 5)) 0 10 =
        ((setBitsIn ⟨[180], 10⟩ 0 10).all (fun o => o < 5), ⟨[180], 10⟩,
          stopAt (fun o => o < 5) (setBitsIn ⟨[180], 10⟩ 0 10))) :=
  ⟨by decide, by decide, by decide,
    (C8_iterate_spec ⟨[180], 10⟩ (fun o => o < 5) 0 10 (by decide) (by decide) (by decide)).1⟩
